import Mathlib

/-!
Verification of the reddit-save incremental archive engine.

This file gives a shallow embedding, over `List Char` strings, of the parts of
`utilities.py` and `save.py` that the specification's claims are about:

* the media dispatcher `save_media` (routing decision),
* the strategy handlers `_handle_direct_media` and `_handle_reddit_gallery`
  (with the rate-limit backoff loop),
* the archive merger `get_previous`,
* the paginator `save_paginated_html` / `save_html`,
* the per-run merge phase `process_posts` / `process_comments` and the
  blacklist file handling.

Network I/O and the filesystem are made explicit: HTTP responses are passed in
as data, file writes are returned as data, and a directory is a list of
`(name, content)` pairs in listing order.  Python strings are `List Char`
(`Str`), and Python's `None` / `-1` / filename results of the media fetchers
are the constructors of `MediaResult`.
-/

abbrev Str := List Char

namespace RedditSave

/-! ### Generic string helpers (modelling Python `str` operations) -/

/-- Python `s.split(sep)` for a one-character separator: the result is never
empty and splitting keeps empty pieces. -/
def splitOnC (sep : Char) : Str → List Str
  | [] => [[]]
  | c :: r =>
    if c = sep then [] :: splitOnC sep r
    else
      match splitOnC sep r with
      | [] => [[c]]
      | h :: t => (c :: h) :: t

/-- Python `b in a` substring test. -/
def containsSub (pat : Str) : Str → Bool
  | [] => pat.isPrefixOf []
  | c :: r => pat.isPrefixOf (c :: r) || containsSub pat r

/-- Python `a.endswith(b)`. -/
def endsWithC (s suffix : Str) : Bool := suffix.isSuffixOf s

/-- Python `s.lower()` (ASCII case folding suffices for the URLs involved). -/
def toLowerC (s : Str) : Str := s.map Char.toLower

/-- Python `l[-2:]`. -/
def lastTwo (l : List Str) : List Str := l.drop (l.length - 2)

/-- Python `s.strip()`: remove leading and trailing whitespace. -/
def isWsC (c : Char) : Bool :=
  c = ' ' || c = '\t' || c = '\n' || c = '\r' || c = '\x0b' || c = '\x0c'

def stripWs (s : Str) : Str :=
  ((s.dropWhile isWsC).reverse.dropWhile isWsC).reverse

/-- Append an element to an accumulator unless it is already present.  This is
the `if x not in acc: acc.append(x)` idiom used throughout `get_previous` and
for the in-memory blacklist set. -/
def addUnique (acc : List Str) (x : Str) : List Str :=
  if x ∈ acc then acc else acc ++ [x]

/-- First-seen-order deduplication: folding `addUnique` from the empty list. -/
def dedupFirst (l : List Str) : List Str := l.foldl addUnique []

/-! ### The media dispatcher `save_media` (utilities.py lines 141-194)

The dispatcher's routing decision is a pure function of the post's `url`,
`permalink` and (for the reddituploads branch) whether the post has a
`preview` attribute.  Each arm of the Python conditional becomes a `Route`
constructor; the handler that each arm calls is recorded in the constructor
name. -/

def IMAGE_EXTENSIONS : List Str :=
  ["gif".toList, "gifv".toList, "jpg".toList, "jpeg".toList, "png".toList]

def VIDEO_EXTENSIONS : List Str := ["mp4".toList]

def PLATFORMS : List Str := ["redgifs.com".toList, "imgur.com".toList, "youtube.com".toList]

inductive Route
  /-- `url.endswith(post.permalink)`: self post, returns `None`. -/
  | selfPost
  /-- `domain == "gfycat.com"`: dead host, returns `-1`. -/
  | deadGfycat
  /-- `domain == "imgur.com" and "gallery" in url`: unsupported, returns `-1`. -/
  | deadImgurGallery
  /-- extension is a known image/video extension: `_handle_direct_media`. -/
  | direct (extension : Str)
  /-- `domain == "reddit.com" and "gallery" in url`: `_handle_reddit_gallery`. -/
  | redditGallery
  /-- `domain == "redd.it"`: `_handle_vreddit`. -/
  | vreddit
  /-- `domain == "imgur.com" and extension != "gifv"`: `_handle_imgur`. -/
  | imgurProbe
  /-- `domain in PLATFORMS`: `_handle_ytdlp`. -/
  | ytdlp
  /-- `domain == "reddituploads.com"` without a `preview` attribute: `-1`. -/
  | deadNoPreview
  /-- `domain == "reddituploads.com"` with a `preview`: nested direct fetch. -/
  | redditUploadsDirect
  /-- fall-through: returns `None` (external page, no media). -/
  | external
  deriving DecidableEq, Repr

/-- `stripped_url = url.split("?")[0]` then `extension = stripped_url.split(".")[-1].lower()`. -/
def extOf (url : Str) : Str :=
  toLowerC ((splitOnC '.' ((splitOnC '?' url).headD [])).getLastD [])

/-- `domain = ".".join(post.url.split("/")[2].split(".")[-2:])`.  A URL with
fewer than three `/`-separated pieces makes the Python raise `IndexError`;
here the host piece defaults to empty (theorems about well-formed URLs add the
length hypothesis explicitly). -/
def domainOf (url : Str) : Str :=
  List.intercalate ('.' :: []) (lastTwo (splitOnC '.' ((splitOnC '/' url).getD 2 [])))

/-- The routing decision of `save_media` (utilities.py lines 149-194),
translated arm for arm. -/
def save_media_route (url permalink : Str) (hasPreview : Bool) : Route :=
  if endsWithC url permalink then .selfPost
  else
    let extension := extOf url
    let domain := domainOf url
    if domain = "gfycat.com".toList then .deadGfycat
    else if domain = "imgur.com".toList ∧ containsSub ("gallery".toList) url then .deadImgurGallery
    else if extension ∈ IMAGE_EXTENSIONS ++ VIDEO_EXTENSIONS then .direct extension
    else if domain = "reddit.com".toList ∧ containsSub ("gallery".toList) url then .redditGallery
    else if domain = "redd.it".toList then .vreddit
    else if domain = "imgur.com".toList ∧ extension ≠ "gifv".toList then .imgurProbe
    else if domain ∈ PLATFORMS then .ytdlp
    else if domain = "reddituploads.com".toList then
      (if hasPreview then .redditUploadsDirect else .deadNoPreview)
    else .external

/-! ### Media fetch results and the direct-download handler
(utilities.py lines 197-212) -/

/-- The tagged outcome of a fetch attempt.  `noMedia` is Python `None`,
`failed` is Python `-1`, `fetchedOne` a single filename string and
`fetchedMany` the list a gallery returns. -/
inductive MediaResult
  | noMedia
  | failed
  | fetchedOne (filename : Str)
  | fetchedMany (filenames : List Str)
  deriving DecidableEq, Repr

/-- A single HTTP GET's outcome: either the request raises, or it returns a
status code, a `Content-Type` header value (empty if absent, matching
`headers.get("Content-Type", "")`) and a body. -/
inductive HttpResp
  | raise
  | ok (status : Nat) (contentType : Str) (body : Str)
  deriving DecidableEq

/-- Decimal digits of a Nat (Python `str(n)` / f-string formatting).  The fuel
argument only drives termination; `n + 1` units always suffice. -/
def natStrGo : Nat → Nat → Str
  | 0, _ => []
  | fuel + 1, n =>
    if n < 10 then [Nat.digitChar n]
    else natStrGo fuel (n / 10) ++ [Nat.digitChar (n % 10)]

def natStr (n : Nat) : Str := natStrGo (n + 1) n

/-- `_handle_direct_media`: one GET; on a 2xx status whose content type starts
with `image` or `video`, write the body under `media/{readable}_{id}.{ext}`
and return that filename; otherwise (including a raised exception) return
`-1`.  The returned pair is (result, optional written file).  The file write
itself is modelled as always succeeding. -/
def handle_direct_media (resp : HttpResp) (postId readableName extension : Str) :
    MediaResult × Option (Str × Str) :=
  let filename := readableName ++ ('_' :: postId) ++ ('.' :: extension)
  match resp with
  | .raise => (.failed, none)
  | .ok status ctype body =>
    if status / 100 = 2 then
      if (("image".toList).isPrefixOf ctype || ("video".toList).isPrefixOf ctype) then
        (.fetchedOne filename, some (("media/".toList) ++ filename, body))
      else (.failed, none)
    else (.failed, none)

/-! ### The reddit gallery handler (utilities.py lines 233-277)

The JSON metadata is `media : Option (List GalleryItem)` (`None` and the
empty dict are both falsy in `if not media`).  Each item carries its optional
`"m"` mime field, the optional `"u"` field of its `"s"` object, and the
outcome of the GET against its (ampersand-unescaped) source URL; the response
oracle is attached to the item since the handler performs exactly one GET per
resolvable item. -/

inductive GResp
  | raise
  | status (code : Nat) (body : Str)
  deriving DecidableEq, Repr

structure GalleryItem where
  m : Option Str
  u : Option Str
  resp : GResp
  deriving DecidableEq, Repr

/-- The gallery download loop (`for idx, data in enumerate(list(media.values()), 1)`).
Returns the files written (path, bytes) and `some filenames` on normal
completion, or `none` when a GET raised (`return -1`); writes made before the
abort are kept. -/
def galleryLoop (postId readableName : Str) : Nat → List GalleryItem → List (Str × Str) × Option (List Str)
  | _, [] => ([], some [])
  | idx, it :: rest =>
    match it.m with
    | none => galleryLoop postId readableName (idx + 1) rest
    | some mtype =>
      let ext := (splitOnC '/' mtype).getLastD []
      match it.u with
      | none => galleryLoop postId readableName (idx + 1) rest
      | some _ =>
        match it.resp with
        | .raise => ([], none)
        | .status code body =>
          if code = 200 then
            let fn := readableName ++ ('_' :: postId) ++ ('_' :: natStr idx) ++ ('.' :: ext)
            let r := galleryLoop postId readableName (idx + 1) rest
            ((("media/".toList) ++ fn, body) :: r.1, r.2.map (fn :: ·))
          else galleryLoop postId readableName (idx + 1) rest

/-- `_handle_reddit_gallery` after the metadata fetch: absent or empty
metadata yields `None`; otherwise run the loop; a raised per-item GET yields
`-1`; zero collected filenames yields `None`; otherwise the filename list. -/
def handle_reddit_gallery (postId readableName : Str) (media : Option (List GalleryItem)) :
    MediaResult × List (Str × Str) :=
  match media with
  | none => (.noMedia, [])
  | some items =>
    if items.isEmpty then (.noMedia, [])
    else
      let r := galleryLoop postId readableName 1 items
      match r.2 with
      | none => (.failed, r.1)
      | some fns => (if fns.isEmpty then .noMedia else .fetchedMany fns, r.1)

/-- An item on which the loop performs a GET that raises. -/
def itemRaises (it : GalleryItem) : Bool :=
  it.m.isSome && it.u.isSome && (match it.resp with | .raise => true | _ => false)

/-- An item whose GET returns exactly status 200 (the only status the loop
accepts). -/
def itemOk200 (it : GalleryItem) : Bool :=
  it.m.isSome && it.u.isSome && (match it.resp with | .status c _ => c = 200 | _ => false)

/-! ### The 429 backoff loop (utilities.py lines 238-244) -/

/-- The rate-limit loop: given the successive status codes the metadata GET
returns, while the code is 429 the handler sleeps for `sleep` seconds,
refetches, and doubles `sleep` (which starts at 1).  Returns the list of
sleep durations performed, plus the first non-429 code (or `none` if the
finite observation list is exhausted while still rate limited). -/
def backoffLoop (sleep : Nat) : List Nat → List Nat × Option Nat
  | [] => ([], none)
  | code :: rest =>
    if code = 429 then
      let r := backoffLoop (sleep * 2) rest
      (sleep :: r.1, r.2)
    else ([], some code)

/-! ### The paginator (save.py lines 147-165 and save_html lines 460-463) -/

/-- The arguments `save_paginated_html` passes to `save_html` for one page. -/
structure PageArgs where
  posts : List Str
  comments : List Str
  idx : Nat
  hasNext : Bool
  deriving DecidableEq, Repr

/-- `page_count = (length + page_size - 1) // page_size` over
`length = max(len(posts_html), len(comments_html))` (ceiling division). -/
def pageCount (posts comments : List Str) (pageSize : Nat) : Nat :=
  (max posts.length comments.length + pageSize - 1) / pageSize

/-- The Python slice `l[i*k : (i+1)*k]`. -/
def sliceK (pageSize i : Nat) (l : List Str) : List Str :=
  (l.drop (i * pageSize)).take pageSize

/-- `save_paginated_html`: nothing for `page_size = 0`; otherwise one
`save_html` call per page `i < page_count`, with the two independently sliced
fragment lists and `has_next = i < page_count - 1`. -/
def save_paginated_args (posts comments : List Str) (pageSize : Nat) : List PageArgs :=
  if pageSize = 0 then []
  else
    (List.range (pageCount posts comments pageSize)).map
      (fun i => ⟨sliceK pageSize i posts, sliceK pageSize i comments, i,
                 decide (i < pageCount posts comments pageSize - 1)⟩)

/-- The previous-page link `save_html` leaves in a page (lines 460-463 of
utilities.py): page 0 and the unpaged page have the Previous anchor removed,
page `i ≥ 1` links to page `i - 1`. -/
def pageNavPrev : Option Nat → Option Nat
  | none => none
  | some 0 => none
  | some (i + 1) => some i

/-! ### Decimal parsing and Python `str.replace` -/

/-- Python `int(s)` restricted to plain digit strings (the page-number
suffixes this code parses): digits-only and nonempty, else a `ValueError`,
modelled as `none`. -/
def natParse (s : Str) : Option Nat :=
  if s.isEmpty then none
  else if s.all Char.isDigit then
    some (s.foldl (fun a c => a * 10 + (c.toNat - 48)) 0)
  else none

/-- Python `s.replace(old, new)` for a nonempty `old`: replace every
non-overlapping occurrence left to right.  Fuel-driven recursion; one unit of
fuel consumes at least one character, so `s.length` units always suffice. -/
def replaceAllGo (pat rep : Str) : Nat → Str → Str
  | 0, s => s
  | fuel + 1, s =>
    if pat.isPrefixOf s ∧ ¬ pat.isEmpty then rep ++ replaceAllGo pat rep fuel (s.drop pat.length)
    else
      match s with
      | [] => []
      | c :: r => c :: replaceAllGo pat rep fuel r

def replaceAll (pat rep s : Str) : Str := replaceAllGo pat rep s.length s

/-! ### `add_media_preview_to_html` (utilities.py lines 356-386) -/

/-- `if not isinstance(media, list): media = [media]`. -/
def mediaFiles : MediaResult → List Str
  | .fetchedOne f => [f]
  | .fetchedMany fs => fs
  | _ => []

/-- One `<figure>`/`<video>` block of the gallery preview (`i` is the 0-based
enumeration index; the caption shows `i + 1 of total`).  A file with an
unknown extension contributes nothing. -/
def galleryPiece (total i : Nat) (f : Str) : Str :=
  let ext := (splitOnC '.' f).getLastD []
  let loc := ("media/".toList) ++ f
  if ext ∈ IMAGE_EXTENSIONS then
    ("<figure><img src=\"".toList) ++ loc ++ ("\"><figcaption>Image ".toList)
      ++ natStr (i + 1) ++ (" of ".toList) ++ natStr total
      ++ ("</figcaption></figure><br/><br/>".toList)
  else if ext ∈ VIDEO_EXTENSIONS then
    ("<video controls><source src=\"".toList) ++ loc ++ ("\"></video><br/>".toList)
      ++ natStr (i + 1) ++ (" of ".toList) ++ natStr total ++ ("<br/><br/>".toList)
  else []

/-- `add_media_preview_to_html`: a single media file becomes an inline
`<img>`/`<video>` replacing the `<!--preview-->` placeholder (unknown
extension: the fragment is returned unchanged); several files become a
concatenated gallery string replacing the placeholder. -/
def add_media_preview_to_html (postHtml : Str) (media : MediaResult) : Str :=
  let files := mediaFiles media
  if files.length = 1 then
    let m := files.headD []
    let ext := (splitOnC '.' m).getLastD []
    let loc := ("media/".toList) ++ m
    if ext ∈ IMAGE_EXTENSIONS then
      replaceAll ("<!--preview-->".toList)
        (("<img src=\"".toList) ++ loc ++ ("\">".toList)) postHtml
    else if ext ∈ VIDEO_EXTENSIONS then
      replaceAll ("<!--preview-->".toList)
        (("<video controls><source src=\"".toList) ++ loc ++ ("\"></video>".toList)) postHtml
    else postHtml
  else
    replaceAll ("<!--preview-->".toList)
      ((files.enum.map (fun p => galleryPiece files.length p.1 p.2)).flatten) postHtml

/-! ### `process_posts` and `process_comments` (save.py lines 82-144)

The upstream post/comment records enter the merge phase only through their
`id` and through the externally rendered HTML, so an item is its `id`
(`RItem`), and `get_post_html` / `create_post_page_html` /
`get_comment_html` — which fill template files that live outside the core —
are passed in as functions.  `save_media`'s outcome for each post is a
function argument as well (its internals are verified separately above). -/

structure RItem where
  id : Str
  deriving DecidableEq, Repr

/-- The blacklist set read at the start of `process_posts`:
`{line.strip() for line in f if line.strip()}` (first-seen order stands in
for the arbitrary set order; only membership and the sorted write matter). -/
def blSetOf : Option (List Str) → List Str
  | none => []
  | some lines => ((lines.map stripWs).filter (fun l => !l.isEmpty)).foldl addUnique []

def isFailed : MediaResult → Bool
  | .failed => true
  | _ => false

/-- Python truthiness of the `media` value in `elif media:`. -/
def mediaTruthy : MediaResult → Bool
  | .noMedia => false
  | .failed => false
  | .fetchedOne f => !f.isEmpty
  | .fetchedMany fs => !fs.isEmpty

/-- The fragment the loop appends for a kept post: the rendered post HTML,
with the media preview inserted when the fetch produced something truthy. -/
def postFragment (fetch : RItem → MediaResult) (render : RItem → Str) (p : RItem) : Str :=
  let h0 := render p
  if mediaTruthy (fetch p) then add_media_preview_to_html h0 (fetch p) else h0

structure ProcState where
  bl : List Str
  frags : List Str
  pages : List (Str × Str)
  deriving DecidableEq, Repr

/-- One iteration of the `for post in posts` loop in `process_posts`:
skip if blacklisted; on `-1` add the id to the blacklist set and skip;
otherwise append the fragment and write the standalone post page. -/
def processStep (fetch : RItem → MediaResult) (render : RItem → Str)
    (pageRender : RItem → Str → Str) (st : ProcState) (p : RItem) : ProcState :=
  if p.id ∈ st.bl then st
  else
    match fetch p with
    | .failed => ⟨addUnique st.bl p.id, st.frags, st.pages⟩
    | m =>
      let h1 := if mediaTruthy m then add_media_preview_to_html (render p) m else render p
      ⟨st.bl, st.frags ++ [h1],
       st.pages ++ [(("posts/".toList) ++ p.id ++ (".html".toList), pageRender p h1)]⟩

structure ProcResult where
  html : List Str
  written : Option (List Str)
  pages : List (Str × Str)
  deriving DecidableEq, Repr

/-- `process_posts`: read the blacklist set, return the existing fragments
unchanged (no blacklist rewrite) when there are no new posts; otherwise run
the loop and, when a blacklist file is configured, write the grown set back
sorted ascending, one id per line. -/
def process_posts (fetch : RItem → MediaResult) (render : RItem → Str)
    (pageRender : RItem → Str → Str) (posts : List RItem)
    (blacklist : Option (List Str)) (existing : List Str) : ProcResult :=
  let blInit := blSetOf blacklist
  if posts.isEmpty then ⟨existing, none, []⟩
  else
    let st := posts.foldl (processStep fetch render pageRender) ⟨blInit, [], []⟩
    ⟨st.frags ++ existing,
     match blacklist with
     | none => none
     | some _ => some (List.insertionSort (fun a b : Str => a ≤ b) st.bl),
     st.pages⟩

/-- `process_comments`: no blacklist, no media; render each new comment and
prepend the results to the existing fragments. -/
def process_comments (crender : RItem → Str) (comments : List RItem)
    (existing : List Str) : List Str :=
  if comments.isEmpty then existing
  else (comments.map crender) ++ existing

/-- A post the loop keeps (renders into the output): not in the blacklist
set it runs against, and its fetch did not fail. -/
def keepPost (blInit : List Str) (fetch : RItem → MediaResult) (p : RItem) : Bool :=
  decide (p.id ∉ blInit) && !(isFailed (fetch p))

/-- A post the loop blacklists: not already blacklisted, and its fetch failed. -/
def failPost (blInit : List Str) (fetch : RItem → MediaResult) (p : RItem) : Bool :=
  decide (p.id ∉ blInit) && isFailed (fetch p)

/-- `new_posts = sorted([p for p in ... if p.id not in existing_ids], key=lambda p: p.id)`
(save.py lines 188-189), for posts and comments alike. -/
def idLe (a b : RItem) : Prop := a.id ≤ b.id

instance : DecidableRel idLe := fun a b => (inferInstance : Decidable (a.id ≤ b.id))

instance : IsTotal RItem idLe := ⟨fun a b => le_total a.id b.id⟩

instance : IsTrans RItem idLe := ⟨fun _ _ _ hab hbc => le_trans hab hbc⟩

def newSorted (existingIds : List Str) (items : List RItem) : List RItem :=
  List.insertionSort idLe (items.filter (fun p => decide (p.id ∉ existingIds)))

/-! ### Regex extraction used by `get_previous` (utilities.py lines 53-72)

`re.findall` with the three patterns of the source is modelled by direct
scanning functions: a pattern `A(.+?)B` matches at the leftmost occurrence of
`A`, lazily extends the middle to the first following occurrence of `B`, and
the scan resumes after the match.  None of the anchors can overlap
themselves, so a failed attempt resumes after the anchor. -/

/-- After `id="` was consumed: take at least one non-newline character up to
the first following `"`, returning the group and the text after the quote. -/
def grabGroupGo : Str → Option (Str × Str)
  | [] => none
  | c :: r =>
    if c = '"' then some ([], r)
    else if c = '\n' then none
    else (grabGroupGo r).map (fun p => (c :: p.1, p.2))

def grabGroup : Str → Option (Str × Str)
  | [] => none
  | c :: r =>
    if c = '\n' then none
    else (grabGroupGo r).map (fun p => (c :: p.1, p.2))

/-- All groups of `re.findall(r'id="(.+?)"', s)` in order.  One unit of fuel
consumes at least one character. -/
def extractIdsGo : Nat → Str → List Str
  | 0, _ => []
  | fuel + 1, s =>
    if ("id=\"".toList).isPrefixOf s then
      match grabGroup (s.drop 4) with
      | some (g, rest) => g :: extractIdsGo fuel rest
      | none => extractIdsGo fuel (s.drop 4)
    else
      match s with
      | [] => []
      | _ :: r => extractIdsGo fuel r

def extractIds (s : Str) : List Str := extractIdsGo s.length s

/-- The character class `[\S\n\t\v ]` of the fragment patterns: every
character except `\r` and `\f`. -/
def allowFragChar (c : Char) : Bool := !(c = '\r' || c = '\x0c')

/-- After the opening anchor: lazily take at least one allowed character
until the closing anchor follows; return the middle and the text after the
closing anchor. -/
def grabFragGo (close : Str) : Str → Option (Str × Str)
  | [] => none
  | c :: r =>
    if allowFragChar c then
      if close.isPrefixOf r then some ([c], r.drop close.length)
      else (grabFragGo close r).map (fun p => (c :: p.1, p.2))
    else none

/-- All matches of `re.findall(r'(OPEN[\S\n\t\v ]+?CLOSE)', s)` in order,
each returned as the full matched text `OPEN ++ middle ++ CLOSE`. -/
def extractFragsGo (opn close : Str) : Nat → Str → List Str
  | 0, _ => []
  | fuel + 1, s =>
    if opn.isPrefixOf s then
      match grabFragGo close (s.drop opn.length) with
      | some (mid, rest) => (opn ++ mid ++ close) :: extractFragsGo opn close fuel rest
      | none => extractFragsGo opn close fuel (s.drop opn.length)
    else
      match s with
      | [] => []
      | _ :: r => extractFragsGo opn close fuel r

def extractFrags (opn close : Str) (s : Str) : List Str := extractFragsGo opn close s.length s

def POST_OPEN : Str := "<div class=\"post\"".toList

def POST_CLOSE : Str := "<!--postend--></div>".toList

def COMMENT_OPEN : Str := "<div class=\"comment\"".toList

def COMMENT_CLOSE : Str := "<!--commentend--></div>".toList

/-- The first `id="..."` group of a fragment: the fragment's item id (the
markers put the id attribute on the fragment's top-level element). -/
def fragIdOf (frag : Str) : Option Str := (extractIds frag).head?

/-! ### `get_previous` (utilities.py lines 41-73)

The directory is a list of `(name, content)` pairs in `os.listdir` order.
`html_file` is assumed to be `base ++ ".html"` with a dot-free `base` (true
for every name `configure_mode` produces), so the pattern
`html_file.replace(".html", r"\.(\d+)?\.html")` matches `f` iff `f` starts
with `base` followed by `.`, then optional digits, then `.html`; `re.match`'s
`m[0]` is that matched prefix.  The sort key `int(m.split(".")[1])` raises
`ValueError` when the digits are absent, which (like a failing file read)
makes the whole call fail: `none`. -/

def patMatch (base : Str) (f : Str) : Option Str :=
  if base.isPrefixOf f then
    match f.drop base.length with
    | [] => none
    | c :: r2 =>
      if c = '.' then
        if (".html".toList).isPrefixOf (r2.drop (r2.takeWhile Char.isDigit).length) then
          some ((base ++ ('.' :: r2.takeWhile Char.isDigit)) ++ (".html".toList))
        else none
      else none
  else none

/-- `int(m.split(".")[1])`. -/
def keyOf (m : Str) : Option Nat := ((splitOnC '.' m)[1]?).bind natParse

def keyNumD (m : Str) : Nat := (keyOf m).getD 0

def keyLe (a b : Str) : Prop := keyNumD a ≤ keyNumD b

instance : DecidableRel keyLe := fun a b => (inferInstance : Decidable (keyNumD a ≤ keyNumD b))

instance : IsTotal Str keyLe := ⟨fun a b => Nat.le_total (keyNumD a) (keyNumD b)⟩

instance : IsTrans Str keyLe := ⟨fun _ _ _ hab hbc => Nat.le_trans hab hbc⟩

structure Corpus where
  ids : List Str
  posts : List Str
  comments : List Str
  deriving DecidableEq, Repr

/-- Scanning one page file: append each previously unseen id, post fragment
and comment fragment to the respective accumulator. -/
def scanFile (acc : Corpus) (content : Str) : Corpus :=
  ⟨(extractIds content).foldl addUnique acc.ids,
   (extractFrags POST_OPEN POST_CLOSE content).foldl addUnique acc.posts,
   (extractFrags COMMENT_OPEN COMMENT_CLOSE content).foldl addUnique acc.comments⟩

/-- The `.html` file names of the directory listing. -/
def htmlFilesOf (fs : List (Str × Str)) : List Str :=
  (fs.map Prod.fst).filter (fun f => endsWithC f (".html".toList))

/-- The paged matches, sorted ascending by numeric suffix (CPython's stable
sort; the numeric keys of distinct page files produced by this program are
distinct, so stability is immaterial). -/
def matchedSorted (fs : List (Str × Str)) (htmlFile : Str) : List Str :=
  List.insertionSort keyLe
    ((htmlFilesOf fs).filterMap (patMatch (htmlFile.take (htmlFile.length - 5))))

/-- The file-reading order: sorted paged files, then the bare file if it is
in the listing. -/
def readOrder (fs : List (Str × Str)) (htmlFile : Str) : List Str :=
  matchedSorted fs htmlFile
    ++ (if (htmlFilesOf fs).contains htmlFile then [htmlFile] else [])

def get_previous (fs : List (Str × Str)) (htmlFile : Str) : Option Corpus :=
  match (matchedSorted fs htmlFile).mapM keyOf with
  | none => none
  | some _ =>
    match (readOrder fs htmlFile).mapM (fun n => List.lookup n fs) with
    | none => none
    | some contents => some (contents.foldl scanFile ⟨[], [], []⟩)

/-- A one-page directory for the C4 witness: the bare output file holding a
single archived post fragment with id `a`. -/
def c4fs : List (Str × Str) :=
  [(("saved.html".toList),
    ("<div class=\"post\" id=\"a\">x<!--postend--></div>".toList))]

/-- The corpus `get_previous` recovers from `c4fs`. -/
def c4corpus : Corpus :=
  ⟨[("a".toList)],
   [("<div class=\"post\" id=\"a\">x<!--postend--></div>".toList)], []⟩

/-! ### `save_html` and the per-run file writes (utilities.py lines 447-472,
save.py lines 147-165 and 201-204)

`save_html` fills the page template (`username.html` with `[username]`
already substituted — `main` always passes a username — or the mode file) by
literal `str.replace` steps and writes the result under the page's file name.
`runSave` is the whole save phase of `main`: one paginated file per page and
the canonical unpaged file. -/

def save_html_render (tmpl style js : Str) (posts comments : List Str)
    (page : Option Nat) (hasNext : Bool) : Str :=
  let h1 := replaceAll ("<style></style>".toList)
    (("<style>\n".toList) ++ style ++ ("\n</style>".toList)) tmpl
  let h2 := replaceAll ("<script></script>".toList)
    (("<script>\n".toList) ++ js ++ ("\n</script>".toList)) h1
  let h3 := match page with
    | none => replaceAll ("Previous</a>".toList) ("</a>".toList) h2
    | some 0 => replaceAll ("Previous</a>".toList) ("</a>".toList) h2
    | some (j + 1) => replaceAll (".p.html".toList) (('.' :: natStr j) ++ (".html".toList)) h2
  let h4 := match page, hasNext with
    | none, _ => replaceAll ("Next</a>".toList) ("</a>".toList) h3
    | some _, false => replaceAll ("Next</a>".toList) ("</a>".toList) h3
    | some i, true => replaceAll (".n.html".toList) (('.' :: natStr (i + 1)) ++ (".html".toList)) h3
  let h5 := replaceAll ("<!--posts-->".toList) (List.intercalate ('\n' :: []) posts) h4
  replaceAll ("<!--comments-->".toList) (List.intercalate ('\n' :: []) comments) h5

/-- `file_name = html_file.replace(".html", f".{page}.html")`. -/
def pageFileName (htmlFile : Str) (page : Nat) : Str :=
  replaceAll (".html".toList) (('.' :: natStr page) ++ (".html".toList)) htmlFile

/-- The save phase of one run: the paginated pages then the bare file, each
as (file name, bytes). -/
def runSave (tmpl style js htmlFile : Str) (posts comments : List Str) (pageSize : Nat) :
    List (Str × Str) :=
  ((save_paginated_args posts comments pageSize).map
    (fun a => (pageFileName htmlFile a.idx,
               save_html_render tmpl style js a.posts a.comments (some a.idx) a.hasNext)))
  ++ [(htmlFile, save_html_render tmpl style js posts comments none false)]

/-! ### C1: extension routing versus host routing -/

/-- C1 counterexample: the claim "a URL whose path extension is a recognized
image/video extension is routed to the direct-download strategy, even when the
host also matches a gallery or extractor host pattern" is false on the code.
For `https://imgur.com/gallery/pic.png` the extension `png` is recognized and
the host `imgur.com` is in the extractor platform list, yet `save_media`
returns `-1` from the earlier `imgur.com and "gallery" in url` arm, which runs
before the extension check. -/
theorem c1_counterexample :
    extOf ("https://imgur.com/gallery/pic.png".toList) ∈ IMAGE_EXTENSIONS ++ VIDEO_EXTENSIONS
    ∧ domainOf ("https://imgur.com/gallery/pic.png".toList) ∈ PLATFORMS
    ∧ save_media_route ("https://imgur.com/gallery/pic.png".toList)
        ("/r/pics/comments/abc1/cool/".toList) true = Route.deadImgurGallery
    ∧ ∀ e, save_media_route ("https://imgur.com/gallery/pic.png".toList)
        ("/r/pics/comments/abc1/cool/".toList) true ≠ Route.direct e := by
  refine ⟨by decide, by decide, by decide, ?_⟩
  intro e h
  have h2 : save_media_route ("https://imgur.com/gallery/pic.png".toList)
      ("/r/pics/comments/abc1/cool/".toList) true = Route.deadImgurGallery := by decide
  rw [h2] at h
  exact Route.noConfusion h

/-- C1 (amended): extension-based routing takes precedence over the host-based
arms that follow it (reddit gallery, redd.it, imgur probing, the extractor
platforms, reddituploads), but not over the checks that run before it: the
self-post check, the dead host `gfycat.com`, and the unsupported
`imgur.com`+`gallery` combination.  For every post whose URL is not one of
those three cases and whose path extension is a recognized image/video
extension, `save_media` routes to the direct-download strategy. -/
theorem c1_ext_routing_amended (url permalink : Str) (hasPreview : Bool)
    (_hurl : 3 ≤ (splitOnC '/' url).length)
    (hperm : endsWithC url permalink = false)
    (hext : extOf url ∈ IMAGE_EXTENSIONS ++ VIDEO_EXTENSIONS)
    (hgf : domainOf url ≠ "gfycat.com".toList)
    (him : ¬ (domainOf url = "imgur.com".toList ∧ containsSub ("gallery".toList) url = true)) :
    save_media_route url permalink hasPreview = Route.direct (extOf url) := by
  unfold save_media_route
  rw [hperm]
  simp only [Bool.false_eq_true, if_false]
  rw [if_neg hgf, if_neg (by simpa using him), if_pos hext]

/-- C1 witness: a direct image link on the reddit gallery host
(`https://reddit.com/gallery/pic.png`, whose host matches the gallery arm's
pattern) is routed to the direct-download strategy. -/
theorem c1_witness :
    save_media_route ("https://reddit.com/gallery/pic.png".toList)
      ("/r/pics/comments/abc1/cool/".toList) true
      = Route.direct (extOf ("https://reddit.com/gallery/pic.png".toList)) :=
  c1_ext_routing_amended _ _ _ (by decide) (by decide) (by decide) (by decide)
    (by decide)

theorem div100_eq_two (s : Nat) : s / 100 = 2 ↔ 200 ≤ s ∧ s < 300 := by omega

theorem handle_direct_media_pos (status : Nat) (ctype body postId readableName extension : Str)
    (h1 : status / 100 = 2)
    (h2 : (("image".toList).isPrefixOf ctype || ("video".toList).isPrefixOf ctype) = true) :
    handle_direct_media (HttpResp.ok status ctype body) postId readableName extension
      = (MediaResult.fetchedOne (readableName ++ ('_' :: postId) ++ ('.' :: extension)),
         some (("media/".toList) ++ (readableName ++ ('_' :: postId) ++ ('.' :: extension)),
               body)) := by
  show (if status / 100 = 2 then
      if (("image".toList).isPrefixOf ctype || ("video".toList).isPrefixOf ctype) then
        (MediaResult.fetchedOne (readableName ++ ('_' :: postId) ++ ('.' :: extension)),
         some (("media/".toList) ++ (readableName ++ ('_' :: postId) ++ ('.' :: extension)), body))
      else (MediaResult.failed, none)
    else (MediaResult.failed, none)) = _
  rw [if_pos h1, if_pos h2]

theorem handle_direct_media_badct (status : Nat) (ctype body postId readableName extension : Str)
    (h1 : status / 100 = 2)
    (h2 : ¬ (("image".toList).isPrefixOf ctype || ("video".toList).isPrefixOf ctype) = true) :
    handle_direct_media (HttpResp.ok status ctype body) postId readableName extension
      = (MediaResult.failed, none) := by
  show (if status / 100 = 2 then
      if (("image".toList).isPrefixOf ctype || ("video".toList).isPrefixOf ctype) then
        (MediaResult.fetchedOne (readableName ++ ('_' :: postId) ++ ('.' :: extension)),
         some (("media/".toList) ++ (readableName ++ ('_' :: postId) ++ ('.' :: extension)), body))
      else (MediaResult.failed, none)
    else (MediaResult.failed, none)) = _
  rw [if_pos h1, if_neg h2]

theorem handle_direct_media_badst (status : Nat) (ctype body postId readableName extension : Str)
    (h1 : ¬ status / 100 = 2) :
    handle_direct_media (HttpResp.ok status ctype body) postId readableName extension
      = (MediaResult.failed, none) := by
  show (if status / 100 = 2 then
      if (("image".toList).isPrefixOf ctype || ("video".toList).isPrefixOf ctype) then
        (MediaResult.fetchedOne (readableName ++ ('_' :: postId) ++ ('.' :: extension)),
         some (("media/".toList) ++ (readableName ++ ('_' :: postId) ++ ('.' :: extension)), body))
      else (MediaResult.failed, none)
    else (MediaResult.failed, none)) = _
  rw [if_neg h1]

/-- C7: a direct-download attempt succeeds iff the GET returns a 2xx status
and the content type begins with `image` or `video`; on success the body is
written to the media directory under `{readable}_{id}.{ext}` and that
filename is returned; every other outcome returns `FetchFailed` (and writes
nothing). -/
theorem c7_direct_media (resp : HttpResp) (postId readableName extension : Str) :
    ((∃ f, (handle_direct_media resp postId readableName extension).1 = MediaResult.fetchedOne f)
      ↔ ∃ status ctype body, resp = HttpResp.ok status ctype body
          ∧ 200 ≤ status ∧ status < 300
          ∧ (("image".toList).isPrefixOf ctype || ("video".toList).isPrefixOf ctype) = true)
    ∧ (∀ status ctype body, resp = HttpResp.ok status ctype body →
        200 ≤ status → status < 300 →
        (("image".toList).isPrefixOf ctype || ("video".toList).isPrefixOf ctype) = true →
        handle_direct_media resp postId readableName extension
          = (MediaResult.fetchedOne (readableName ++ ('_' :: postId) ++ ('.' :: extension)),
             some (("media/".toList) ++ (readableName ++ ('_' :: postId) ++ ('.' :: extension)),
                   body)))
    ∧ ((∀ f, (handle_direct_media resp postId readableName extension).1
          ≠ MediaResult.fetchedOne f) →
        handle_direct_media resp postId readableName extension = (MediaResult.failed, none)) := by
  cases resp with
  | raise =>
    refine ⟨?_, ?_, ?_⟩
    · constructor
      · rintro ⟨f, hf⟩; exact MediaResult.noConfusion hf
      · rintro ⟨s, ct, b, h, -⟩; exact HttpResp.noConfusion h
    · intro s ct b h; exact HttpResp.noConfusion h
    · intro _; rfl
  | ok status ctype body =>
    by_cases h1 : status / 100 = 2
    · by_cases h2 : (("image".toList).isPrefixOf ctype || ("video".toList).isPrefixOf ctype) = true
      · have hmain := handle_direct_media_pos status ctype body postId readableName extension h1 h2
        refine ⟨?_, ?_, ?_⟩
        · constructor
          · intro _
            exact ⟨status, ctype, body, rfl, ((div100_eq_two status).mp h1).1,
              ((div100_eq_two status).mp h1).2, h2⟩
          · rintro ⟨s, ct, b, heq, -⟩
            cases heq
            exact ⟨_, by rw [hmain]⟩
        · intro s ct b heq _ _ _
          cases heq
          exact hmain
        · intro hno
          exact absurd (by rw [hmain] :
            (handle_direct_media (HttpResp.ok status ctype body) postId readableName
              extension).1 = MediaResult.fetchedOne
                (readableName ++ ('_' :: postId) ++ ('.' :: extension))) (hno _)
      · have hmain := handle_direct_media_badct status ctype body postId readableName extension h1 h2
        refine ⟨?_, ?_, ?_⟩
        · constructor
          · rintro ⟨f, hf⟩
            rw [hmain] at hf
            exact MediaResult.noConfusion hf
          · rintro ⟨s, ct, b, heq, -, -, hok⟩
            cases heq; exact absurd hok h2
        · intro s ct b heq _ _ hok
          cases heq; exact absurd hok h2
        · intro _; exact hmain
    · have hmain := handle_direct_media_badst status ctype body postId readableName extension h1
      refine ⟨?_, ?_, ?_⟩
      · constructor
        · rintro ⟨f, hf⟩
          rw [hmain] at hf
          exact MediaResult.noConfusion hf
        · rintro ⟨s, ct, b, heq, hlo, hhi, -⟩
          cases heq; exact absurd ((div100_eq_two _).mpr ⟨hlo, hhi⟩) h1
      · intro s ct b heq hlo hhi _
        cases heq; exact absurd ((div100_eq_two _).mpr ⟨hlo, hhi⟩) h1
      · intro _; exact hmain

/-- C7 witness: a concrete 2xx image response is fetched and written, and a
concrete 404 response fails. -/
theorem c7_witness :
    handle_direct_media (HttpResp.ok 200 ("image/png".toList) ("B".toList))
        ("pid".toList) ("rn".toList) ("png".toList)
      = (MediaResult.fetchedOne ("rn_pid.png".toList),
         some (("media/rn_pid.png".toList), ("B".toList))) :=
  (c7_direct_media (HttpResp.ok 200 ("image/png".toList) ("B".toList))
      ("pid".toList) ("rn".toList) ("png".toList)).2.1
    200 ("image/png".toList) ("B".toList) rfl (by decide) (by decide) (by decide)

theorem galleryLoop_cons_noM (postId readableName : Str) (idx : Nat) (u : Option Str)
    (resp : GResp) (rest : List GalleryItem) :
    galleryLoop postId readableName idx (⟨none, u, resp⟩ :: rest)
      = galleryLoop postId readableName (idx + 1) rest := rfl

theorem galleryLoop_cons_noU (postId readableName : Str) (idx : Nat) (mtype : Str)
    (resp : GResp) (rest : List GalleryItem) :
    galleryLoop postId readableName idx (⟨some mtype, none, resp⟩ :: rest)
      = galleryLoop postId readableName (idx + 1) rest := rfl

theorem galleryLoop_cons_raise (postId readableName : Str) (idx : Nat) (mtype u0 : Str)
    (rest : List GalleryItem) :
    galleryLoop postId readableName idx (⟨some mtype, some u0, GResp.raise⟩ :: rest)
      = ([], none) := rfl

theorem galleryLoop_cons_status (postId readableName : Str) (idx : Nat) (mtype u0 : Str)
    (code : Nat) (body : Str) (rest : List GalleryItem) :
    galleryLoop postId readableName idx (⟨some mtype, some u0, GResp.status code body⟩ :: rest)
      = if code = 200 then
          ((("media/".toList) ++ (readableName ++ ('_' :: postId) ++ ('_' :: natStr idx)
              ++ ('.' :: (splitOnC '/' mtype).getLastD [])), body)
             :: (galleryLoop postId readableName (idx + 1) rest).1,
           ((galleryLoop postId readableName (idx + 1) rest).2).map
             ((readableName ++ ('_' :: postId) ++ ('_' :: natStr idx)
               ++ ('.' :: (splitOnC '/' mtype).getLastD [])) :: ·))
        else galleryLoop postId readableName (idx + 1) rest := rfl

theorem galleryLoop_spec (postId readableName : Str) :
    ∀ (items : List GalleryItem) (idx : Nat),
      ((galleryLoop postId readableName idx items).2 = none ↔ items.any itemRaises = true)
      ∧ (∀ fns, (galleryLoop postId readableName idx items).2 = some fns →
          (fns = [] ↔ items.any itemOk200 = false)) := by
  intro items
  induction items with
  | nil =>
    intro idx
    refine ⟨by simp [galleryLoop], ?_⟩
    intro fns h
    simp only [galleryLoop] at h
    cases h
    simp
  | cons it rest ih =>
    intro idx
    obtain ⟨m, u, resp⟩ := it
    cases m with
    | none =>
      have h := ih (idx + 1)
      rw [galleryLoop_cons_noM]
      constructor
      · rw [h.1]; simp [itemRaises]
      · intro fns hf
        have := h.2 fns hf
        simpa [itemOk200] using this
    | some mtype =>
      cases u with
      | none =>
        have h := ih (idx + 1)
        rw [galleryLoop_cons_noU]
        constructor
        · rw [h.1]; simp [itemRaises]
        · intro fns hf
          have := h.2 fns hf
          simpa [itemOk200] using this
      | some u0 =>
        cases resp with
        | raise =>
          rw [galleryLoop_cons_raise]
          constructor
          · simp [itemRaises]
          · intro fns hf
            exact Option.noConfusion hf
        | status code body =>
          have h := ih (idx + 1)
          rw [galleryLoop_cons_status]
          by_cases hc : code = 200
          · rw [if_pos hc]
            constructor
            · simp only [Option.map_eq_none']
              rw [h.1]
              simp [itemRaises]
            · intro fns hf
              simp only [Option.map_eq_some'] at hf
              obtain ⟨fns0, hfns0, hcons⟩ := hf
              subst hcons
              simp [itemOk200, hc]
          · rw [if_neg hc]
            constructor
            · rw [h.1]
              simp [itemRaises]
            · intro fns hf
              have := h.2 fns hf
              simpa [itemOk200, hc] using this

theorem handle_reddit_gallery_cons (postId readableName : Str) (it : GalleryItem)
    (rest : List GalleryItem) :
    handle_reddit_gallery postId readableName (some (it :: rest))
      = (match (galleryLoop postId readableName 1 (it :: rest)).2 with
         | none => (MediaResult.failed, (galleryLoop postId readableName 1 (it :: rest)).1)
         | some fns =>
           (if fns.isEmpty then MediaResult.noMedia else MediaResult.fetchedMany fns,
            (galleryLoop postId readableName 1 (it :: rest)).1)) := rfl

/-- C2 counterexample: the claim "if any single item download fails, the whole
gallery returns FetchFailed; a partial result is never returned" is false on
the code.  With two resolvable items whose GETs return 404 and 200, the first
item's failed download is silently skipped (only a raised exception aborts),
and the handler returns a partial `Fetched` result holding item 2 alone. -/
theorem c2_counterexample :
    (handle_reddit_gallery ("pid".toList) ("rn".toList)
        (some [⟨some ("image/jpg".toList), some ("u1".toList), GResp.status 404 []⟩,
               ⟨some ("image/png".toList), some ("u2".toList), GResp.status 200 ("B".toList)⟩])).1
      = MediaResult.fetchedMany [("rn_pid_2.png".toList)]
    ∧ (handle_reddit_gallery ("pid".toList) ("rn".toList)
        (some [⟨some ("image/jpg".toList), some ("u1".toList), GResp.status 404 []⟩,
               ⟨some ("image/png".toList), some ("u2".toList), GResp.status 200 ("B".toList)⟩])).1
      ≠ MediaResult.failed := by
  constructor
  · decide
  · decide

/-- C2 (amended): a per-item GET that raises an exception aborts the whole
gallery with `FetchFailed` (and conversely `FetchFailed` only arises that
way); an item whose GET merely returns a non-200 status is skipped and the
loop continues, so partial results are possible; absent or empty metadata
yields `NoMedia`; and when nothing raises, the result is `NoMedia` iff no
resolvable item returned status 200. -/
theorem c2_gallery_amended (postId readableName : Str) (items : List GalleryItem) :
    (handle_reddit_gallery postId readableName none = (MediaResult.noMedia, [])
      ∧ handle_reddit_gallery postId readableName (some []) = (MediaResult.noMedia, []))
    ∧ ((handle_reddit_gallery postId readableName (some items)).1 = MediaResult.failed
        ↔ items.any itemRaises = true)
    ∧ (items.any itemRaises = false →
        ((handle_reddit_gallery postId readableName (some items)).1 = MediaResult.noMedia
          ↔ items.any itemOk200 = false)) := by
  refine ⟨⟨rfl, rfl⟩, ?_, ?_⟩
  · cases items with
    | nil => simp [handle_reddit_gallery]
    | cons it rest =>
      rw [handle_reddit_gallery_cons]
      have hspec := (galleryLoop_spec postId readableName (it :: rest) 1).1
      cases hr : (galleryLoop postId readableName 1 (it :: rest)).2 with
      | none =>
        constructor
        · intro _; exact hspec.mp hr
        · intro _; rfl
      | some fns =>
        constructor
        · intro h
          have h2 : (if fns.isEmpty = true then MediaResult.noMedia
              else MediaResult.fetchedMany fns) = MediaResult.failed := h
          by_cases hf : fns.isEmpty = true
          · rw [if_pos hf] at h2
            exact MediaResult.noConfusion h2
          · rw [if_neg hf] at h2
            exact MediaResult.noConfusion h2
        · intro h
          have := hspec.mpr h
          rw [hr] at this
          exact Option.noConfusion this
  · intro hno
    cases items with
    | nil => simp [handle_reddit_gallery]
    | cons it rest =>
      rw [handle_reddit_gallery_cons]
      have hspec := galleryLoop_spec postId readableName (it :: rest) 1
      cases hr : (galleryLoop postId readableName 1 (it :: rest)).2 with
      | none =>
        have := (hspec.1).mp hr
        rw [hno] at this
        exact Bool.noConfusion this
      | some fns =>
        have hiff := hspec.2 fns hr
        by_cases hf : fns = []
        · have hemp : fns.isEmpty = true := by rw [hf]; rfl
          show (if fns.isEmpty = true then MediaResult.noMedia
              else MediaResult.fetchedMany fns) = MediaResult.noMedia
            ↔ (it :: rest).any itemOk200 = false
          rw [if_pos hemp]
          constructor
          · intro _; exact hiff.mp hf
          · intro _; rfl
        · have hemp : ¬ fns.isEmpty = true := by
            cases fns with
            | nil => exact absurd rfl hf
            | cons a l => exact fun h => Bool.noConfusion h
          show (if fns.isEmpty = true then MediaResult.noMedia
              else MediaResult.fetchedMany fns) = MediaResult.noMedia
            ↔ (it :: rest).any itemOk200 = false
          rw [if_neg hemp]
          constructor
          · intro h
            exact MediaResult.noConfusion h
          · intro h
            exact absurd (hiff.mpr h) hf

/-- C2 witness: with one unresolvable item and no raising GETs, the amended
theorem yields `NoMedia` (zero resolvable items is `NoMedia`, not
`FetchFailed`). -/

theorem c2_witness :
    (handle_reddit_gallery ("pid".toList) ("rn".toList)
        (some [⟨none, none, GResp.raise⟩])).1 = MediaResult.noMedia :=
  ((c2_gallery_amended ("pid".toList) ("rn".toList) [⟨none, none, GResp.raise⟩]).2.2
    (by decide)).mpr (by decide)

theorem backoffLoop_cons_429 (s : Nat) (rest : List Nat) :
    backoffLoop s (429 :: rest)
      = (s :: (backoffLoop (s * 2) rest).1, (backoffLoop (s * 2) rest).2) := rfl

theorem backoffLoop_cons_ne (s code : Nat) (rest : List Nat) (hc : code ≠ 429) :
    backoffLoop s (code :: rest) = ([], some code) := by
  show (if code = 429 then
      ((s : Nat) :: (backoffLoop (s * 2) rest).1, (backoffLoop (s * 2) rest).2)
    else ([], some code)) = ([], some code)
  rw [if_neg hc]

theorem backoffLoop_replicate (finalCode : Nat) (hc : finalCode ≠ 429) :
    ∀ (n : Nat) (s : Nat) (rest : List Nat),
      backoffLoop s (List.replicate n 429 ++ finalCode :: rest)
        = ((List.range n).map (fun i => s * 2 ^ i), some finalCode) := by
  intro n
  induction n with
  | zero =>
    intro s rest
    rw [List.replicate_zero, List.nil_append, backoffLoop_cons_ne s finalCode rest hc,
      List.range_zero, List.map_nil]
  | succ n ih =>
    intro s rest
    rw [List.replicate_succ, List.cons_append, backoffLoop_cons_429, ih (s * 2) rest,
      List.range_succ_eq_map]
    simp only [List.map_cons, List.map_map, pow_zero, mul_one]
    refine congrArg (fun l => ((s : Nat) :: l, some finalCode)) ?_
    refine List.map_congr_left ?_
    intro i _
    simp only [Function.comp_apply, pow_succ]
    ring

/-- C8: a gallery metadata request answered by `n` HTTP 429 responses and then
a non-429 response retries until the non-429 response and proceeds with it;
the retry delays are exactly 1, 2, 4, …, 2^(n-1) seconds: the first delay is
1 second and each subsequent delay is double (hence at least double) the
previous one. -/
theorem c8_backoff (n : Nat) (finalCode : Nat) (rest : List Nat) (h : finalCode ≠ 429) :
    (backoffLoop 1 (List.replicate n 429 ++ finalCode :: rest)).2 = some finalCode
    ∧ (backoffLoop 1 (List.replicate n 429 ++ finalCode :: rest)).1
        = (List.range n).map (fun i => 2 ^ i)
    ∧ (0 < n → (backoffLoop 1 (List.replicate n 429 ++ finalCode :: rest)).1[0]? = some 1)
    ∧ (∀ i, i + 1 < n →
        (backoffLoop 1 (List.replicate n 429 ++ finalCode :: rest)).1[i]? = some (2 ^ i)
        ∧ (backoffLoop 1 (List.replicate n 429 ++ finalCode :: rest)).1[i + 1]?
            = some (2 * 2 ^ i)) := by
  have hrep := backoffLoop_replicate finalCode h n 1 rest
  have hone : (List.range n).map (fun i => 1 * 2 ^ i) = (List.range n).map (fun i => 2 ^ i) := by
    refine List.map_congr_left ?_; intro i _; ring
  rw [hone] at hrep
  refine ⟨by rw [hrep], by rw [hrep], ?_, ?_⟩
  · intro hn
    rw [hrep]
    simp only [List.getElem?_map, List.getElem?_range hn, Option.map_some']
    norm_num
  · intro i hi
    rw [hrep]
    constructor
    · simp [List.getElem?_map, List.getElem?_range (by omega : i < n)]
    · simp only [List.getElem?_map, List.getElem?_range hi, Option.map_some']
      refine congrArg some ?_
      ring

/-- C8 witness: two 429 responses then a 200: the handler proceeds with the
200 and the delays are [1, 2]. -/
theorem c8_witness :
    (backoffLoop 1 (List.replicate 2 429 ++ 200 :: [])).2 = some 200
    ∧ (backoffLoop 1 (List.replicate 2 429 ++ 200 :: [])).1
        = (List.range 2).map (fun i => 2 ^ i) := by
  have h := c8_backoff 2 200 [] (by decide)
  exact ⟨h.1, h.2.1⟩

theorem lt_divAddOne_mul (a k : Nat) (hk : 0 < k) : a < (a / k + 1) * k := by
  have h1 : a / k * k + a % k = a := Nat.div_add_mod' a k
  have h2 : a % k < k := Nat.mod_lt a hk
  calc a = a / k * k + a % k := h1.symm
    _ < a / k * k + k := Nat.add_lt_add_left h2 _
    _ = (a / k + 1) * k := by rw [Nat.add_mul, one_mul]

theorem le_ceilDiv_mul (a k : Nat) (hk : 0 < k) : a ≤ ((a + k - 1) / k) * k := by
  rcases Nat.eq_zero_or_pos a with rfl | ha
  · simp
  · have h1 : a + k - 1 = (a - 1) + k := by omega
    rw [h1, Nat.add_div_right _ hk]
    have key := lt_divAddOne_mul (a - 1) k hk
    have h2 := Nat.succ_le_of_lt key
    rwa [Nat.succ_eq_add_one, Nat.sub_add_cancel ha] at h2

/-- Concatenating the `pc` many `k`-slices of a list of length at most
`pc * k` reproduces the list. -/
theorem join_chunks (k : Nat) :
    ∀ (pc : Nat) (l : List Str), l.length ≤ pc * k →
      ((List.range pc).map (fun i => (l.drop (i * k)).take k)).flatten = l := by
  intro pc
  induction pc with
  | zero =>
    intro l hl
    simp only [Nat.zero_mul, Nat.le_zero, List.length_eq_zero] at hl
    simp [hl]
  | succ pc ih =>
    intro l hl
    rw [List.range_succ_eq_map]
    simp only [List.map_cons, List.map_map, List.flatten_cons, Nat.zero_mul, List.drop_zero]
    have hfun : ∀ i ∈ List.range pc,
        ((fun i => (l.drop (i * k)).take k) ∘ Nat.succ) i
          = (fun i => ((l.drop k).drop (i * k)).take k) i := by
      intro i _
      simp only [Function.comp_apply]
      rw [List.drop_drop, Nat.succ_mul, Nat.add_comm (i * k) k]
    rw [List.map_congr_left hfun]
    rw [ih (l.drop k) ?_]
    · exact List.take_append_drop k l
    · rw [List.length_drop]
      rw [Nat.succ_mul] at hl
      omega

/-- C3: for `pageSize = k > 0`, pagination emits exactly
`ceil(max(|posts|, |comments|) / k)` pages (the source's "n items" counts the
longer of the two fragment lists, which are sliced independently); page `i`
holds `posts[i*k:(i+1)*k]` and `comments[i*k:(i+1)*k]`; concatenating the
pages reproduces each input list in order; `has_next` is true for every page
except the last; and exactly page 0 has its previous link removed by
`save_html`. -/
theorem c3_pagination (posts comments : List Str) (pageSize : Nat) (hk : 0 < pageSize) :
    (save_paginated_args posts comments pageSize).length
        = (max posts.length comments.length + pageSize - 1) / pageSize
    ∧ (∀ i (h : i < (save_paginated_args posts comments pageSize).length),
        (save_paginated_args posts comments pageSize).get ⟨i, h⟩
          = ⟨sliceK pageSize i posts, sliceK pageSize i comments, i,
             decide (i < pageCount posts comments pageSize - 1)⟩)
    ∧ ((save_paginated_args posts comments pageSize).map PageArgs.posts).flatten = posts
    ∧ ((save_paginated_args posts comments pageSize).map PageArgs.comments).flatten = comments
    ∧ (∀ i (h : i < (save_paginated_args posts comments pageSize).length),
        (((save_paginated_args posts comments pageSize).get ⟨i, h⟩).hasNext = true
          ↔ i ≠ (save_paginated_args posts comments pageSize).length - 1))
    ∧ (∀ i (h : i < (save_paginated_args posts comments pageSize).length),
        (pageNavPrev (some (((save_paginated_args posts comments pageSize).get ⟨i, h⟩).idx))
            = none ↔ i = 0)) := by
  have hne : ¬ pageSize = 0 := Nat.pos_iff_ne_zero.mp hk
  have hdef : save_paginated_args posts comments pageSize
      = (List.range (pageCount posts comments pageSize)).map
          (fun i => ⟨sliceK pageSize i posts, sliceK pageSize i comments, i,
                     decide (i < pageCount posts comments pageSize - 1)⟩) := by
    rw [save_paginated_args, if_neg hne]
  have hlen : (save_paginated_args posts comments pageSize).length
      = pageCount posts comments pageSize := by
    rw [hdef, List.length_map, List.length_range]
  have hget : ∀ i (h : i < (save_paginated_args posts comments pageSize).length),
      (save_paginated_args posts comments pageSize).get ⟨i, h⟩
        = ⟨sliceK pageSize i posts, sliceK pageSize i comments, i,
           decide (i < pageCount posts comments pageSize - 1)⟩ := by
    intro i h
    have h2 : i < pageCount posts comments pageSize := hlen ▸ h
    simp only [hdef, List.get_eq_getElem, List.getElem_map, List.getElem_range]
  refine ⟨hlen, hget, ?_, ?_, ?_, ?_⟩
  · rw [hdef, List.map_map]
    have : (PageArgs.posts ∘ fun i =>
        (⟨sliceK pageSize i posts, sliceK pageSize i comments, i,
          decide (i < pageCount posts comments pageSize - 1)⟩ : PageArgs))
        = fun i => (posts.drop (i * pageSize)).take pageSize := rfl
    rw [this]
    refine join_chunks pageSize _ posts ?_
    exact le_trans (Nat.le_max_left _ _)
      (le_ceilDiv_mul (max posts.length comments.length) pageSize hk)
  · rw [hdef, List.map_map]
    have : (PageArgs.comments ∘ fun i =>
        (⟨sliceK pageSize i posts, sliceK pageSize i comments, i,
          decide (i < pageCount posts comments pageSize - 1)⟩ : PageArgs))
        = fun i => (comments.drop (i * pageSize)).take pageSize := rfl
    rw [this]
    refine join_chunks pageSize _ comments ?_
    exact le_trans (Nat.le_max_right _ _)
      (le_ceilDiv_mul (max posts.length comments.length) pageSize hk)
  · intro i h
    rw [hget i h]
    have h2 : i < pageCount posts comments pageSize := hlen ▸ h
    simp only [decide_eq_true_eq]
    rw [hlen]
    omega
  · intro i h
    rw [hget i h]
    cases i with
    | zero => simp [pageNavPrev]
    | succ j => simp [pageNavPrev]

/-- C3 witness: three posts and one comment at page size two give two pages
whose concatenation reproduces the inputs. -/
theorem c3_witness :
    (save_paginated_args [("a".toList), ("b".toList), ("c".toList)] [("x".toList)] 2).length = 2
    ∧ ((save_paginated_args [("a".toList), ("b".toList), ("c".toList)]
          [("x".toList)] 2).map PageArgs.posts).flatten
        = [("a".toList), ("b".toList), ("c".toList)] := by
  have h := c3_pagination [("a".toList), ("b".toList), ("c".toList)] [("x".toList)] 2
    (by decide)
  exact ⟨h.1.trans (by decide), h.2.2.1⟩

/-! ### Properties of `addUnique` folds -/

theorem addUnique_nodup {acc : List Str} {x : Str} (h : acc.Nodup) : (addUnique acc x).Nodup := by
  unfold addUnique
  by_cases hx : x ∈ acc
  · rw [if_pos hx]; exact h
  · rw [if_neg hx]
    rw [List.nodup_append]
    exact ⟨h, List.nodup_singleton x, by simpa using hx⟩

theorem mem_addUnique {acc : List Str} {x y : Str} (h : y ∈ acc) : y ∈ addUnique acc x := by
  unfold addUnique
  by_cases hx : x ∈ acc
  · rw [if_pos hx]; exact h
  · rw [if_neg hx]; exact List.mem_append_left _ h

theorem self_mem_addUnique (acc : List Str) (x : Str) : x ∈ addUnique acc x := by
  unfold addUnique
  by_cases hx : x ∈ acc
  · rw [if_pos hx]; exact hx
  · rw [if_neg hx]; exact List.mem_append_right _ (List.mem_singleton_self x)

theorem foldl_addUnique_nodup (l : List Str) :
    ∀ acc : List Str, acc.Nodup → (l.foldl addUnique acc).Nodup := by
  induction l with
  | nil => intro acc h; exact h
  | cons x r ih => intro acc h; exact ih (addUnique acc x) (addUnique_nodup h)

theorem mem_foldl_addUnique (l : List Str) :
    ∀ (acc : List Str) (y : Str), y ∈ acc → y ∈ l.foldl addUnique acc := by
  induction l with
  | nil => intro acc y h; exact h
  | cons x r ih => intro acc y h; exact ih (addUnique acc x) y (mem_addUnique h)

theorem foldl_addUnique_of_all_mem (l : List Str) :
    ∀ acc : List Str, (∀ x ∈ l, x ∈ acc) → l.foldl addUnique acc = acc := by
  induction l with
  | nil => intro acc _; rfl
  | cons x r ih =>
    intro acc h
    have hx : x ∈ acc := h x (List.mem_cons_self x r)
    have : addUnique acc x = acc := by unfold addUnique; rw [if_pos hx]
    rw [List.foldl_cons, this]
    exact ih acc (fun y hy => h y (List.mem_cons_of_mem x hy))

theorem foldl_addUnique_of_disjoint (l : List Str) :
    ∀ acc : List Str, l.Nodup → (∀ x ∈ l, x ∉ acc) → l.foldl addUnique acc = acc ++ l := by
  induction l with
  | nil => intro acc _ _; simp
  | cons x r ih =>
    intro acc hnd hd
    have hx : x ∉ acc := hd x (List.mem_cons_self x r)
    have hstep : addUnique acc x = acc ++ [x] := by unfold addUnique; rw [if_neg hx]
    rw [List.foldl_cons, hstep, ih (acc ++ [x]) (List.Nodup.of_cons hnd) ?_, List.append_assoc,
      List.singleton_append]
    intro y hy
    rw [List.mem_append, List.mem_singleton]
    push_neg
    refine ⟨hd y (List.mem_cons_of_mem x hy), ?_⟩
    intro hxy
    subst hxy
    exact (List.nodup_cons.mp hnd).1 hy

/-! ### The `process_posts` loop as a filter -/

theorem processStep_mem (fetch : RItem → MediaResult) (render : RItem → Str)
    (pageRender : RItem → Str → Str) (st : ProcState) (p : RItem) (h : p.id ∈ st.bl) :
    processStep fetch render pageRender st p = st := by
  unfold processStep
  rw [if_pos h]

theorem processStep_failed (fetch : RItem → MediaResult) (render : RItem → Str)
    (pageRender : RItem → Str → Str) (st : ProcState) (p : RItem) (h : p.id ∉ st.bl)
    (hf : fetch p = MediaResult.failed) :
    processStep fetch render pageRender st p = ⟨addUnique st.bl p.id, st.frags, st.pages⟩ := by
  unfold processStep
  rw [if_neg h, hf]

theorem processStep_kept (fetch : RItem → MediaResult) (render : RItem → Str)
    (pageRender : RItem → Str → Str) (st : ProcState) (p : RItem) (h : p.id ∉ st.bl)
    (hf : isFailed (fetch p) = false) :
    processStep fetch render pageRender st p
      = ⟨st.bl, st.frags ++ [postFragment fetch render p],
         st.pages ++ [(("posts/".toList) ++ p.id ++ (".html".toList),
                       pageRender p (postFragment fetch render p))]⟩ := by
  unfold processStep postFragment
  rw [if_neg h]
  cases hfp : fetch p with
  | failed => rw [hfp] at hf; exact Bool.noConfusion hf
  | noMedia => rfl
  | fetchedOne f => rfl
  | fetchedMany fs => rfl

theorem processLoop_spec (fetch : RItem → MediaResult) (render : RItem → Str)
    (pageRender : RItem → Str → Str) :
    ∀ (posts : List RItem) (bl0 F : List Str) (Pg : List (Str × Str)),
      (posts.map RItem.id).Nodup →
      posts.foldl (processStep fetch render pageRender) ⟨bl0, F, Pg⟩
        = ⟨bl0 ++ ((posts.filter (failPost bl0 fetch)).map RItem.id),
           F ++ ((posts.filter (keepPost bl0 fetch)).map (postFragment fetch render)),
           Pg ++ ((posts.filter (keepPost bl0 fetch)).map
             (fun p => (("posts/".toList) ++ p.id ++ (".html".toList),
                        pageRender p (postFragment fetch render p))))⟩ := by
  intro posts
  induction posts with
  | nil => intro bl0 F Pg _; simp
  | cons p rest ih =>
    intro bl0 F Pg hnd
    have hnd' : (rest.map RItem.id).Nodup := (List.nodup_cons.mp (by simpa using hnd)).2
    have hpid : p.id ∉ rest.map RItem.id := (List.nodup_cons.mp (by simpa using hnd)).1
    have hcongr_fail : rest.filter (failPost (bl0 ++ [p.id]) fetch)
        = rest.filter (failPost bl0 fetch) := by
      refine List.filter_congr ?_
      intro q hq
      have hqp : q.id ≠ p.id := by
        intro he
        exact hpid (he ▸ List.mem_map_of_mem RItem.id hq)
      unfold failPost
      have hdec : decide (q.id ∉ bl0 ++ [p.id]) = decide (q.id ∉ bl0) := by
        rw [decide_eq_decide]
        simp [List.mem_append, hqp]
      rw [hdec]
    have hcongr_keep : rest.filter (keepPost (bl0 ++ [p.id]) fetch)
        = rest.filter (keepPost bl0 fetch) := by
      refine List.filter_congr ?_
      intro q hq
      have hqp : q.id ≠ p.id := by
        intro he
        exact hpid (he ▸ List.mem_map_of_mem RItem.id hq)
      unfold keepPost
      have hdec : decide (q.id ∉ bl0 ++ [p.id]) = decide (q.id ∉ bl0) := by
        rw [decide_eq_decide]
        simp [List.mem_append, hqp]
      rw [hdec]
    by_cases hmem : p.id ∈ bl0
    · rw [List.foldl_cons, processStep_mem fetch render pageRender _ p hmem]
      have hfail : failPost bl0 fetch p = false := by
        unfold failPost
        simp [hmem]
      have hkeep : keepPost bl0 fetch p = false := by
        unfold keepPost
        simp [hmem]
      rw [List.filter_cons_of_neg (by simp [hfail] : ¬ failPost bl0 fetch p = true),
        List.filter_cons_of_neg (by simp [hkeep] : ¬ keepPost bl0 fetch p = true)]
      exact ih bl0 F Pg hnd'
    · by_cases hf : isFailed (fetch p) = true
      · have hfe : fetch p = MediaResult.failed := by
          cases hfp : fetch p <;> rw [hfp] at hf <;> first | rfl | exact Bool.noConfusion hf
        rw [List.foldl_cons, processStep_failed fetch render pageRender _ p hmem hfe]
        have hstep : addUnique bl0 p.id = bl0 ++ [p.id] := by
          unfold addUnique; rw [if_neg hmem]
        rw [hstep, ih (bl0 ++ [p.id]) F Pg hnd', hcongr_fail, hcongr_keep]
        have hfail : failPost bl0 fetch p = true := by
          unfold failPost
          simp [hmem, hf]
        have hkeep : keepPost bl0 fetch p = false := by
          unfold keepPost
          simp [hf]
        rw [List.filter_cons_of_pos hfail,
          List.filter_cons_of_neg (by simp [hkeep] : ¬ keepPost bl0 fetch p = true)]
        simp [List.append_assoc]
      · have hf' : isFailed (fetch p) = false := by
          cases hb : isFailed (fetch p)
          · rfl
          · exact absurd hb hf
        rw [List.foldl_cons, processStep_kept fetch render pageRender _ p hmem hf']
        rw [ih bl0 (F ++ [postFragment fetch render p]) _ hnd']
        have hfail : failPost bl0 fetch p = false := by
          unfold failPost
          simp [hf']
        have hkeep : keepPost bl0 fetch p = true := by
          unfold keepPost
          simp [hmem, hf']
        rw [List.filter_cons_of_neg (by simp [hfail] : ¬ failPost bl0 fetch p = true),
          List.filter_cons_of_pos hkeep]
        simp [List.append_assoc]

/-- C10: with an empty new-post list, `process_posts` returns the existing
fragment list unchanged and returns before the blacklist rewrite: no
blacklist write happens even with a blacklist configured and non-empty, and
no standalone post pages are written. -/
theorem c10_empty_posts (fetch : RItem → MediaResult) (render : RItem → Str)
    (pageRender : RItem → Str → Str) (lines : List Str) (existing : List Str) :
    process_posts fetch render pageRender [] (some lines) existing
      = ⟨existing, none, []⟩ := rfl

theorem process_posts_of_ne (fetch : RItem → MediaResult) (render : RItem → Str)
    (pageRender : RItem → Str → Str) (posts : List RItem) (blacklist : Option (List Str))
    (existing : List Str) (hne : posts.isEmpty = false) :
    process_posts fetch render pageRender posts blacklist existing
      = ⟨(posts.foldl (processStep fetch render pageRender) ⟨blSetOf blacklist, [], []⟩).frags
           ++ existing,
         match blacklist with
         | none => none
         | some _ => some (List.insertionSort (fun a b : Str => a ≤ b)
             (posts.foldl (processStep fetch render pageRender) ⟨blSetOf blacklist, [], []⟩).bl),
         (posts.foldl (processStep fetch render pageRender) ⟨blSetOf blacklist, [], []⟩).pages⟩ := by
  unfold process_posts
  rw [if_neg (by simp [hne])]

/-- C5: on a run with a configured blacklist file and a nonempty new-post
list (upstream ids distinct), the blacklist written at the end contains every
id read at the start (never shrinks) and the id of every post whose fetch
returned `FetchFailed`; it is sorted ascending with one id per line (no
duplicates); and every post whose id is in the read blacklist set is excluded
from processing: the produced fragment list consists exactly of the
non-blacklisted, non-failed posts' fragments. -/
theorem c5_blacklist (fetch : RItem → MediaResult) (render : RItem → Str)
    (pageRender : RItem → Str → Str) (posts : List RItem) (lines existing : List Str)
    (hne : posts ≠ [])
    (hnodup : (posts.map RItem.id).Nodup) :
    ∃ w : List Str,
      (process_posts fetch render pageRender posts (some lines) existing).written = some w
      ∧ (∀ x ∈ blSetOf (some lines), x ∈ w)
      ∧ (∀ p ∈ posts, fetch p = MediaResult.failed → p.id ∈ w)
      ∧ w.Sorted (fun a b : Str => a ≤ b)
      ∧ w.Nodup
      ∧ (process_posts fetch render pageRender posts (some lines) existing).html
          = ((posts.filter (keepPost (blSetOf (some lines)) fetch)).map
              (postFragment fetch render)) ++ existing
      ∧ (∀ p ∈ posts, p.id ∈ blSetOf (some lines) →
          keepPost (blSetOf (some lines)) fetch p = false) := by
  have hemp : posts.isEmpty = false := by
    cases posts with
    | nil => exact absurd rfl hne
    | cons a l => rfl
  have heq := process_posts_of_ne fetch render pageRender posts (some lines) existing hemp
  have hloop := processLoop_spec fetch render pageRender posts (blSetOf (some lines)) [] [] hnodup
  set blInit := blSetOf (some lines) with hbl
  set failIds := (posts.filter (failPost blInit fetch)).map RItem.id with hfailIds
  refine ⟨List.insertionSort (fun a b : Str => a ≤ b) (blInit ++ failIds), ?_, ?_, ?_, ?_, ?_, ?_, ?_⟩
  · rw [heq, hloop]
  · intro x hx
    rw [List.mem_insertionSort]
    exact List.mem_append_left _ hx
  · intro p hp hfp
    rw [List.mem_insertionSort]
    by_cases hmem : p.id ∈ blInit
    · exact List.mem_append_left _ hmem
    · refine List.mem_append_right _ ?_
      refine List.mem_map_of_mem RItem.id ?_
      refine List.mem_filter.mpr ⟨hp, ?_⟩
      unfold failPost
      rw [hfp]
      simp [hmem, isFailed]
  · exact List.sorted_insertionSort _ _
  · have hnd : (blInit ++ failIds).Nodup := by
      rw [List.nodup_append]
      refine ⟨?_, ?_, ?_⟩
      · exact foldl_addUnique_nodup _ [] List.nodup_nil
      · refine List.Nodup.sublist ?_ hnodup
        exact List.Sublist.map RItem.id (List.filter_sublist posts)
      · intro x hx hx2
        rw [hfailIds, List.mem_map] at hx2
        obtain ⟨p, hp, hpx⟩ := hx2
        have := (List.mem_filter.mp hp).2
        unfold failPost at this
        rw [Bool.and_eq_true, decide_eq_true_eq] at this
        exact this.1 (hpx ▸ hx)
    exact ((List.perm_insertionSort _ _).nodup_iff).mpr hnd
  · rw [heq, hloop]
    simp
  · intro p _ hmem
    unfold keepPost
    simp [hmem]

/-- C5 witness: one new post whose fetch fails, with `"a"` already
blacklisted: the written blacklist is sorted, contains `"a"` and the failed
post's id, and the post list produced is empty. -/
theorem c5_witness :
    ∃ w : List Str,
      (process_posts (fun _ => MediaResult.failed) (fun p => p.id) (fun _ h => h)
          [⟨"b".toList⟩] (some [("a".toList)]) []).written = some w
      ∧ (∀ x ∈ blSetOf (some [("a".toList)]), x ∈ w)
      ∧ (∀ p ∈ [(⟨"b".toList⟩ : RItem)],
          (fun _ => MediaResult.failed) p = MediaResult.failed → p.id ∈ w)
      ∧ w.Sorted (fun a b : Str => a ≤ b)
      ∧ w.Nodup
      ∧ (process_posts (fun _ => MediaResult.failed) (fun p => p.id) (fun _ h => h)
          [⟨"b".toList⟩] (some [("a".toList)]) []).html
          = (([(⟨"b".toList⟩ : RItem)].filter
              (keepPost (blSetOf (some [("a".toList)])) (fun _ => MediaResult.failed))).map
              (postFragment (fun _ => MediaResult.failed) (fun p => p.id))) ++ []
      ∧ (∀ p ∈ [(⟨"b".toList⟩ : RItem)], p.id ∈ blSetOf (some [("a".toList)]) →
          keepPost (blSetOf (some [("a".toList)])) (fun _ => MediaResult.failed) p = false) :=
  c5_blacklist (fun _ => MediaResult.failed) (fun p => p.id) (fun _ h => h)
    [⟨"b".toList⟩] [("a".toList)] [] (by simp) (by simp)

/-- C9: the merged post-fragment list is the fragments of the kept new posts
(ids not among the existing ids, not blacklisted, fetch not failed), in
ascending id order, followed by the recovered existing fragments verbatim;
the merged comment list is the new comments' fragments in ascending id order
followed by the existing comment fragments. -/
theorem c9_merge (fetch : RItem → MediaResult) (render : RItem → Str)
    (pageRender : RItem → Str → Str) (crender : RItem → Str)
    (upPosts upComments : List RItem) (existingIds ph ch : List Str)
    (blacklist : Option (List Str))
    (hup : (upPosts.map RItem.id).Nodup) :
    (process_posts fetch render pageRender (newSorted existingIds upPosts) blacklist ph).html
      = (((newSorted existingIds upPosts).filter (keepPost (blSetOf blacklist) fetch)).map
          (postFragment fetch render)) ++ ph
    ∧ process_comments crender (newSorted existingIds upComments) ch
        = ((newSorted existingIds upComments).map crender) ++ ch
    ∧ (∀ p ∈ newSorted existingIds upPosts, p.id ∉ existingIds)
    ∧ ((newSorted existingIds upPosts).map RItem.id).Sorted (fun a b : Str => a ≤ b)
    ∧ ((newSorted existingIds upComments).map RItem.id).Sorted (fun a b : Str => a ≤ b) := by
  have hnp : ((newSorted existingIds upPosts).map RItem.id).Nodup := by
    have hperm : List.Perm (newSorted existingIds upPosts)
        (upPosts.filter (fun p => decide (p.id ∉ existingIds))) :=
      List.perm_insertionSort idLe _
    refine ((hperm.map RItem.id).nodup_iff).mpr ?_
    refine List.Nodup.sublist ?_ hup
    exact List.Sublist.map RItem.id (List.filter_sublist upPosts)
  refine ⟨?_, ?_, ?_, ?_, ?_⟩
  · by_cases hemp : newSorted existingIds upPosts = []
    · rw [hemp]
      unfold process_posts
      simp
    · have hemp' : (newSorted existingIds upPosts).isEmpty = false := by
        cases h : newSorted existingIds upPosts with
        | nil => exact absurd h hemp
        | cons a l => rfl
      rw [process_posts_of_ne fetch render pageRender _ blacklist ph hemp',
        processLoop_spec fetch render pageRender _ (blSetOf blacklist) [] [] hnp]
      simp
  · by_cases hemp : newSorted existingIds upComments = []
    · rw [hemp]
      unfold process_comments
      simp
    · have hemp' : (newSorted existingIds upComments).isEmpty = false := by
        cases h : newSorted existingIds upComments with
        | nil => exact absurd h hemp
        | cons a l => rfl
      unfold process_comments
      rw [if_neg (by simp [hemp'])]
  · intro p hp
    have := List.mem_filter.mp ((List.mem_insertionSort idLe).mp hp)
    exact of_decide_eq_true this.2
  · have hs := List.sorted_insertionSort idLe
      (upPosts.filter (fun p => decide (p.id ∉ existingIds)))
    exact List.pairwise_map.mpr hs
  · have hs := List.sorted_insertionSort idLe
      (upComments.filter (fun p => decide (p.id ∉ existingIds)))
    exact List.pairwise_map.mpr hs

/-- C9 witness: two upstream posts `b, a` (one comment `d`), existing id
`c`: the merged lists are the new fragments sorted by id followed by the
existing fragments. -/
theorem c9_witness :
    (process_posts (fun _ => MediaResult.noMedia) (fun p => p.id) (fun _ h => h)
        (newSorted [("c".toList)] [⟨"b".toList⟩, ⟨"a".toList⟩]) none [("P".toList)]).html
      = (((newSorted [("c".toList)] [⟨"b".toList⟩, ⟨"a".toList⟩]).filter
          (keepPost (blSetOf none) (fun _ => MediaResult.noMedia))).map
          (postFragment (fun _ => MediaResult.noMedia) (fun p => p.id))) ++ [("P".toList)] :=
  (c9_merge (fun _ => MediaResult.noMedia) (fun p => p.id) (fun _ h => h) (fun p => p.id)
    [⟨"b".toList⟩, ⟨"a".toList⟩] [⟨"d".toList⟩] [("c".toList)] [("P".toList)] [] none
    (by simp)).1

theorem get_previous_some (fs : List (Str × Str)) (htmlFile : Str) (corpus : Corpus)
    (h : get_previous fs htmlFile = some corpus) :
    ∃ contents : List Str,
      (readOrder fs htmlFile).mapM (fun n => List.lookup n fs) = some contents
      ∧ corpus = contents.foldl scanFile ⟨[], [], []⟩ := by
  unfold get_previous at h
  rcases h2 : (matchedSorted fs htmlFile).mapM keyOf with _ | ks
  · rw [h2] at h
    exact Option.noConfusion h
  · rw [h2] at h
    rcases h3 : (readOrder fs htmlFile).mapM (fun n => List.lookup n fs) with _ | contents
    · rw [h3] at h
      exact Option.noConfusion h
    · rw [h3] at h
      exact ⟨contents, rfl, (Option.some.inj h).symm⟩

theorem foldl_scanFile_decomp (contents : List Str) :
    ∀ acc : Corpus, contents.foldl scanFile acc
      = ⟨((contents.map extractIds).flatten).foldl addUnique acc.ids,
         ((contents.map (extractFrags POST_OPEN POST_CLOSE)).flatten).foldl addUnique acc.posts,
         ((contents.map (extractFrags COMMENT_OPEN COMMENT_CLOSE)).flatten).foldl addUnique
           acc.comments⟩ := by
  induction contents with
  | nil => intro acc; rfl
  | cons c cs ih =>
    intro acc
    rw [List.foldl_cons, ih (scanFile acc c)]
    simp only [List.map_cons, List.flatten_cons, List.foldl_append]
    rfl

theorem process_posts_html_eq (fetch : RItem → MediaResult) (render : RItem → Str)
    (pageRender : RItem → Str → Str) (posts : List RItem) (blacklist : Option (List Str))
    (existing : List Str) (hnodup : (posts.map RItem.id).Nodup) :
    (process_posts fetch render pageRender posts blacklist existing).html
      = ((posts.filter (keepPost (blSetOf blacklist) fetch)).map
          (postFragment fetch render)) ++ existing := by
  by_cases hemp : posts = []
  · subst hemp
    unfold process_posts
    simp
  · have hemp' : posts.isEmpty = false := by
      cases h : posts with
      | nil => exact absurd h hemp
      | cons a l => rfl
    rw [process_posts_of_ne fetch render pageRender posts blacklist existing hemp',
      processLoop_spec fetch render pageRender posts (blSetOf blacklist) [] [] hnodup]
    simp

theorem newSorted_ids_nodup (existingIds : List Str) (items : List RItem)
    (h : (items.map RItem.id).Nodup) :
    ((newSorted existingIds items).map RItem.id).Nodup := by
  have hperm : List.Perm (newSorted existingIds items)
      (items.filter (fun p => decide (p.id ∉ existingIds))) :=
    List.perm_insertionSort idLe _
  refine ((hperm.map RItem.id).nodup_iff).mpr ?_
  refine List.Nodup.sublist ?_ h
  exact List.Sublist.map RItem.id (List.filter_sublist items)

/-- C4: for a successfully recovered corpus, the recovered ids and the
recovered post/comment fragments are free of duplicates (ids first-seen, and
fragments deduplicated by exact text, both by construction of the
accumulating fold); the paged files are read in ascending numeric-suffix
order (the bare file last by construction of `readOrder`); every upstream
item whose id is among the recovered ids is excluded from the new-post list,
so its previously rendered fragment is reused verbatim (the recovered
fragments form the unchanged tail of the merged list); and — provided
rendering tags each new fragment with its item id, recovered fragments carry
distinct ids drawn from the recovered id set, and upstream ids are distinct —
the merged corpus carries each item id exactly once. -/
theorem c4_dedup (fs : List (Str × Str)) (htmlFile : Str)
    (fetch : RItem → MediaResult) (render : RItem → Str) (pageRender : RItem → Str → Str)
    (upstream : List RItem) (blacklist : Option (List Str)) (corpus : Corpus)
    (hgp : get_previous fs htmlFile = some corpus)
    (hup : (upstream.map RItem.id).Nodup)
    (hfr : ∀ p ∈ upstream, fragIdOf (postFragment fetch render p) = some p.id)
    (hphid : (corpus.posts.map fragIdOf).Nodup)
    (hcov : ∀ f ∈ corpus.posts, ∃ x, fragIdOf f = some x ∧ x ∈ corpus.ids) :
    corpus.ids.Nodup ∧ corpus.posts.Nodup ∧ corpus.comments.Nodup
    ∧ (matchedSorted fs htmlFile).Pairwise keyLe
    ∧ (∀ p ∈ upstream, p.id ∈ corpus.ids → p ∉ newSorted corpus.ids upstream)
    ∧ corpus.posts <:+
        (process_posts fetch render pageRender (newSorted corpus.ids upstream)
          blacklist corpus.posts).html
    ∧ (((process_posts fetch render pageRender (newSorted corpus.ids upstream)
          blacklist corpus.posts).html).map fragIdOf).Nodup := by
  obtain ⟨contents, -, hcorp⟩ := get_previous_some fs htmlFile corpus hgp
  have hdec := foldl_scanFile_decomp contents ⟨[], [], []⟩
  have hids : corpus.ids.Nodup := by
    rw [hcorp, hdec]
    exact foldl_addUnique_nodup _ [] List.nodup_nil
  have hposts : corpus.posts.Nodup := by
    rw [hcorp, hdec]
    exact foldl_addUnique_nodup _ [] List.nodup_nil
  have hcomments : corpus.comments.Nodup := by
    rw [hcorp, hdec]
    exact foldl_addUnique_nodup _ [] List.nodup_nil
  have hnp : ((newSorted corpus.ids upstream).map RItem.id).Nodup :=
    newSorted_ids_nodup corpus.ids upstream hup
  have hhtml := process_posts_html_eq fetch render pageRender
    (newSorted corpus.ids upstream) blacklist corpus.posts hnp
  refine ⟨hids, hposts, hcomments, ?_, ?_, ?_, ?_⟩
  · unfold matchedSorted
    exact List.sorted_insertionSort keyLe _
  · intro p _ hmemid hmemNew
    have := List.mem_filter.mp ((List.mem_insertionSort idLe).mp hmemNew)
    exact (of_decide_eq_true this.2) hmemid
  · rw [hhtml]
    exact List.suffix_append _ _
  · rw [hhtml, List.map_append, List.map_map]
    have hkept_sub : ∀ q ∈ (newSorted corpus.ids upstream).filter
        (keepPost (blSetOf blacklist) fetch), q ∈ upstream ∧ q.id ∉ corpus.ids := by
      intro q hq
      have hq2 := (List.mem_filter.mp hq).1
      have hq3 := List.mem_filter.mp ((List.mem_insertionSort idLe).mp hq2)
      exact ⟨hq3.1, of_decide_eq_true hq3.2⟩
    have hmapeq : ((newSorted corpus.ids upstream).filter
          (keepPost (blSetOf blacklist) fetch)).map (fragIdOf ∘ postFragment fetch render)
        = (((newSorted corpus.ids upstream).filter
            (keepPost (blSetOf blacklist) fetch)).map RItem.id).map some := by
      rw [List.map_map]
      refine List.map_congr_left ?_
      intro q hq
      exact hfr q (hkept_sub q hq).1
    rw [hmapeq]
    refine List.Nodup.append ?_ hphid ?_
    · refine List.Nodup.map (Option.some_injective Str) ?_
      refine List.Nodup.sublist ?_ hnp
      exact List.Sublist.map RItem.id (List.filter_sublist _)
    · intro x hx1 hx2
      rw [List.mem_map] at hx1
      obtain ⟨y, hy, hyx⟩ := hx1
      rw [List.mem_map] at hy
      obtain ⟨q, hq, hqy⟩ := hy
      rw [List.mem_map] at hx2
      obtain ⟨f, hf, hfx⟩ := hx2
      obtain ⟨z, hz1, hz2⟩ := hcov f hf
      have hqid : q.id ∉ corpus.ids := (hkept_sub q hq).2
      rw [← hfx] at hyx
      rw [hz1] at hyx
      rw [← hqy] at hyx
      have : q.id = z := Option.some.inj hyx
      exact hqid (this ▸ hz2)

/-- C4 witness: on the concrete one-page directory and one upstream post
`b`, the recovered ids are duplicate-free, an upstream item with a recovered
id would be excluded, and the recovered fragment is reused verbatim as the
tail of the merged list. -/
theorem c4_witness :
    c4corpus.ids.Nodup
    ∧ (∀ p ∈ [(⟨"b".toList⟩ : RItem)], p.id ∈ c4corpus.ids →
        p ∉ newSorted c4corpus.ids [(⟨"b".toList⟩ : RItem)])
    ∧ c4corpus.posts <:+
        (process_posts (fun _ => MediaResult.noMedia)
          (fun p => ("id=\"".toList) ++ p.id ++ ('"' :: []))
          (fun _ h => h) (newSorted c4corpus.ids [(⟨"b".toList⟩ : RItem)])
          none c4corpus.posts).html := by
  have hcov : ∀ f ∈ c4corpus.posts, ∃ x, fragIdOf f = some x ∧ x ∈ c4corpus.ids := by
    intro f hf
    have hfe : f = ("<div class=\"post\" id=\"a\">x<!--postend--></div>".toList) := by
      simpa [c4corpus] using hf
    subst hfe
    exact ⟨("a".toList), by decide, by decide⟩
  have h := c4_dedup c4fs ("saved.html".toList) (fun _ => MediaResult.noMedia)
      (fun p => ("id=\"".toList) ++ p.id ++ ('"' :: [])) (fun _ h => h)
      [(⟨"b".toList⟩ : RItem)] none c4corpus
      (by decide) (by decide) (by decide) (by decide) hcov
  exact ⟨h.1, h.2.2.2.2.1, h.2.2.2.2.2.1⟩

/-! ### Decimal rendering round-trips through parsing -/

theorem digitChar_isDigit : ∀ m, m < 10 → (Nat.digitChar m).isDigit = true := by decide

theorem digitChar_val48 : ∀ m, m < 10 → (Nat.digitChar m).toNat - 48 = m := by decide

theorem natStrGo_spec : ∀ (fuel n : Nat), n < fuel →
    natStrGo fuel n ≠ []
    ∧ (natStrGo fuel n).all Char.isDigit = true
    ∧ (natStrGo fuel n).foldl (fun a c => a * 10 + (c.toNat - 48)) 0 = n := by
  intro fuel
  induction fuel with
  | zero => intro n h; exact absurd h (Nat.not_lt_zero n)
  | succ fuel ih =>
    intro n h
    by_cases h10 : n < 10
    · have he : natStrGo (fuel + 1) n = [Nat.digitChar n] := by
        show (if n < 10 then [Nat.digitChar n]
          else natStrGo fuel (n / 10) ++ [Nat.digitChar (n % 10)]) = _
        rw [if_pos h10]
      rw [he]
      refine ⟨by simp, ?_, ?_⟩
      · simp [List.all_cons, digitChar_isDigit n h10]
      · simp [List.foldl_cons, digitChar_val48 n h10]
    · have he : natStrGo (fuel + 1) n
          = natStrGo fuel (n / 10) ++ [Nat.digitChar (n % 10)] := by
        show (if n < 10 then [Nat.digitChar n]
          else natStrGo fuel (n / 10) ++ [Nat.digitChar (n % 10)]) = _
        rw [if_neg h10]
      have hdiv : n / 10 < fuel := by
        have h1 : n / 10 < n := Nat.div_lt_self (by omega) (by omega)
        omega
      obtain ⟨h1, h2, h3⟩ := ih (n / 10) hdiv
      have hmod : n % 10 < 10 := Nat.mod_lt n (by omega)
      rw [he]
      refine ⟨by simp, ?_, ?_⟩
      · rw [List.all_append, h2]
        simp [digitChar_isDigit (n % 10) hmod]
      · rw [List.foldl_append, h3, List.foldl_cons, digitChar_val48 (n % 10) hmod]
        simp only [List.foldl_nil]
        omega

theorem natStr_ne_nil (n : Nat) : natStr n ≠ [] := (natStrGo_spec (n + 1) n (by omega)).1

theorem natStr_all_digit (n : Nat) : (natStr n).all Char.isDigit = true :=
  (natStrGo_spec (n + 1) n (by omega)).2.1

theorem natParse_natStr (n : Nat) : natParse (natStr n) = some n := by
  unfold natParse
  have hne : ¬ (natStr n).isEmpty = true := by
    cases h : natStr n with
    | nil => exact absurd h (natStr_ne_nil n)
    | cons a l => simp [h]
  rw [if_neg hne, if_pos (natStr_all_digit n)]
  exact congrArg some (natStrGo_spec (n + 1) n (by omega)).2.2

theorem natStr_inj {a b : Nat} (h : natStr a = natStr b) : a = b := by
  have ha := natParse_natStr a
  rw [h, natParse_natStr b] at ha
  exact (Option.some.inj ha).symm

theorem isDigit_ne_dot (c : Char) (h : c.isDigit = true) : c ≠ '.' := by
  intro he
  subst he
  exact Bool.noConfusion h

theorem natStr_no_dot (n : Nat) : ∀ c ∈ natStr n, c ≠ '.' := by
  intro c hc
  exact isDigit_ne_dot c (by
    have := natStr_all_digit n
    rw [List.all_eq_true] at this
    exact this c hc)

/-! ### `replaceAll` on a string that ends with the pattern -/

theorem replaceAllGo_succ (pat rep : Str) (fuel : Nat) (s : Str) :
    replaceAllGo pat rep (fuel + 1) s
      = if pat.isPrefixOf s ∧ ¬ pat.isEmpty then
          rep ++ replaceAllGo pat rep fuel (s.drop pat.length)
        else match s with
          | [] => []
          | c :: r => c :: replaceAllGo pat rep fuel r := rfl

theorem replaceAllGo_nil (pat rep : Str) (fuel : Nat) : replaceAllGo pat rep fuel [] = [] := by
  cases fuel with
  | zero => rfl
  | succ fuel =>
    rw [replaceAllGo_succ, if_neg ?_]
    intro hcontra
    cases pat with
    | nil => exact hcontra.2 rfl
    | cons p ps => exact Bool.noConfusion hcontra.1

/-- Replacing `.html` in `l ++ ".html"` where `l` has no dot rewrites exactly
the final occurrence. -/
theorem replaceAllGo_html (rep : Str) :
    ∀ (fuel : Nat) (l : Str), l.length + 5 ≤ fuel → (∀ c ∈ l, c ≠ '.') →
      replaceAllGo (".html".toList) rep fuel (l ++ (".html".toList)) = l ++ rep := by
  intro fuel
  induction fuel with
  | zero => intro l hl _; exact absurd hl (by omega)
  | succ fuel ih =>
    intro l hl hdot
    cases l with
    | nil =>
      rw [List.nil_append, replaceAllGo_succ, if_pos (by decide)]
      show rep ++ replaceAllGo (".html".toList) rep fuel [] = [] ++ rep
      rw [replaceAllGo_nil]
      simp
    | cons c cs =>
      have hc : c ≠ '.' := hdot c (List.mem_cons_self c cs)
      rw [List.cons_append, replaceAllGo_succ, if_neg ?_]
      · show c :: replaceAllGo (".html".toList) rep fuel (cs ++ (".html".toList))
          = (c :: cs) ++ rep
        have hlen : cs.length + 5 ≤ fuel := by
          simp only [List.length_cons] at hl
          omega
        rw [ih cs hlen (fun d hd => hdot d (List.mem_cons_of_mem c hd))]
        rfl
      · intro hcontra
        have h1 := hcontra.1
        have h2 : ('.' == c && (("html".toList).isPrefixOf (cs ++ (".html".toList)))) = true := h1
        rw [Bool.and_eq_true] at h2
        exact hc (eq_of_beq h2.1).symm

theorem pageFileName_eq (base : Str) (hdot : ∀ c ∈ base, c ≠ '.') (page : Nat) :
    pageFileName (base ++ (".html".toList)) page
      = base ++ ('.' :: (natStr page ++ (".html".toList))) := by
  unfold pageFileName replaceAll
  have hlen : (base ++ (".html".toList)).length = base.length + 5 := by simp
  rw [hlen, replaceAllGo_html _ (base.length + 5) base (le_refl _) hdot]
  rfl

/-! ### Structure of the written file names under `get_previous`'s pattern -/

theorem isPrefixOf_append_self (l t : Str) : l.isPrefixOf (l ++ t) = true := by
  rw [List.isPrefixOf_iff_prefix]
  exact List.prefix_append l t

theorem splitOnC_cons (sep c : Char) (r : Str) :
    splitOnC sep (c :: r)
      = if c = sep then [] :: splitOnC sep r
        else match splitOnC sep r with
          | [] => [[c]]
          | h :: t => (c :: h) :: t := rfl

theorem endsWithC_append (x sfx : Str) : endsWithC (x ++ sfx) sfx = true := by
  unfold endsWithC
  rw [List.isSuffixOf_iff_suffix]
  exact List.suffix_append x sfx

theorem splitOnC_sep_append (a : Str) (ha : ∀ c ∈ a, c ≠ '.') (rest : Str) :
    splitOnC '.' (a ++ '.' :: rest) = a :: splitOnC '.' rest := by
  induction a with
  | nil =>
    show splitOnC '.' ('.' :: rest) = [] :: splitOnC '.' rest
    rw [splitOnC_cons, if_pos rfl]
  | cons c cs ih =>
    have hc : c ≠ '.' := ha c (List.mem_cons_self c cs)
    show splitOnC '.' (c :: (cs ++ '.' :: rest)) = (c :: cs) :: splitOnC '.' rest
    rw [splitOnC_cons, if_neg hc, ih (fun d hd => ha d (List.mem_cons_of_mem c hd))]

theorem takeWhile_all_append (p : Char → Bool) :
    ∀ (a b : Str), a.all p = true → (∀ c, b.head? = some c → p c = false) →
      (a ++ b).takeWhile p = a := by
  intro a
  induction a with
  | nil =>
    intro b _ hb
    cases b with
    | nil => rfl
    | cons c bs =>
      show List.takeWhile p (c :: bs) = []
      rw [List.takeWhile_cons, hb c rfl]
      rfl
  | cons c cs ih =>
    intro b ha hb
    rw [List.all_cons, Bool.and_eq_true] at ha
    show List.takeWhile p (c :: (cs ++ b)) = c :: cs
    rw [List.takeWhile_cons, ha.1, if_pos rfl, ih b ha.2 hb]

/-- Right- and left-associated spellings of a page file name. -/
theorem pageName_assoc (base : Str) (n : Nat) :
    base ++ ('.' :: (natStr n ++ (".html".toList)))
      = (base ++ ('.' :: natStr n)) ++ (".html".toList) := by
  rw [List.append_assoc]
  rfl

/-- The bare output file does not match the paged-file pattern. -/
theorem patMatch_bare (base : Str) : patMatch base (base ++ (".html".toList)) = none := by
  unfold patMatch
  rw [if_pos (isPrefixOf_append_self base _), List.drop_left]
  rfl

theorem takeWhile_digits_html (n : Nat) :
    (natStr n ++ (".html".toList)).takeWhile Char.isDigit = natStr n := by
  refine takeWhile_all_append Char.isDigit (natStr n) (".html".toList)
    (natStr_all_digit n) ?_
  intro c hc
  have hce : c = '.' := by
    have h5 : (".html".toList).head? = some '.' := rfl
    rw [h5] at hc
    exact (Option.some.inj hc).symm
  rw [hce]
  rfl

/-- A page file `base.N.html` matches the pattern, and `m[0]` is the whole
name. -/
theorem patMatch_page (base : Str) (n : Nat) :
    patMatch base (base ++ ('.' :: (natStr n ++ (".html".toList))))
      = some (base ++ ('.' :: (natStr n ++ (".html".toList)))) := by
  unfold patMatch
  rw [if_pos (isPrefixOf_append_self base _), List.drop_left]
  show (if '.' = '.' then
      (if (".html".toList).isPrefixOf
          ((natStr n ++ (".html".toList)).drop
            ((natStr n ++ (".html".toList)).takeWhile Char.isDigit).length) then
        some ((base ++ ('.' :: (natStr n ++ (".html".toList)).takeWhile Char.isDigit))
          ++ (".html".toList))
      else none)
    else none) = some (base ++ ('.' :: (natStr n ++ (".html".toList))))
  rw [if_pos rfl, takeWhile_digits_html n, List.drop_left,
    if_pos (by decide : (".html".toList).isPrefixOf (".html".toList) = true),
    ← pageName_assoc]

theorem keyOf_page (base : Str) (hbase : ∀ c ∈ base, c ≠ '.') (n : Nat) :
    keyOf (base ++ ('.' :: (natStr n ++ (".html".toList)))) = some n := by
  unfold keyOf
  have h1 : splitOnC '.' (base ++ '.' :: (natStr n ++ (".html".toList)))
      = base :: splitOnC '.' (natStr n ++ (".html".toList)) :=
    splitOnC_sep_append base hbase _
  have h2 : splitOnC '.' (natStr n ++ (".html".toList))
      = natStr n :: splitOnC '.' ("html".toList) := by
    show splitOnC '.' (natStr n ++ '.' :: ("html".toList)) = _
    exact splitOnC_sep_append (natStr n) (natStr_no_dot n) _
  have h3 : splitOnC '.' ("html".toList) = [("html".toList)] := rfl
  rw [h1, h2, h3]
  show natParse (natStr n) = some n
  exact natParse_natStr n

theorem keyNumD_page (base : Str) (hbase : ∀ c ∈ base, c ≠ '.') (n : Nat) :
    keyNumD (base ++ ('.' :: (natStr n ++ (".html".toList)))) = n := by
  unfold keyNumD
  rw [keyOf_page base hbase n]
  rfl

/-- Distinct pages have distinct file names. -/
theorem pageName_inj (base : Str) {a b : Nat}
    (h : base ++ ('.' :: (natStr a ++ (".html".toList)))
       = base ++ ('.' :: (natStr b ++ (".html".toList)))) : a = b := by
  have h1 := List.append_cancel_left h
  have h2 : natStr a ++ (".html".toList) = natStr b ++ (".html".toList) :=
    List.tail_eq_of_cons_eq h1
  exact natStr_inj (List.append_cancel_right h2)

/-- The bare file name is not a page file name. -/
theorem bare_ne_pageName (base : Str) (n : Nat) :
    base ++ (".html".toList) ≠ base ++ ('.' :: (natStr n ++ (".html".toList))) := by
  intro h
  have := congrArg List.length h
  simp only [List.length_append, List.length_cons] at this
  have hne := natStr_ne_nil n
  have : (natStr n).length = 0 := by omega
  rw [List.length_eq_zero] at this
  exact hne this

/-! ### `mapM` and `lookup` on the written directory -/

theorem mapM_option_some {α β : Type} (l : List α) (f : α → Option β) (g : α → β)
    (h : ∀ x ∈ l, f x = some (g x)) : l.mapM f = some (l.map g) := by
  induction l with
  | nil => rfl
  | cons x xs ih =>
    rw [List.mapM_cons, h x (List.mem_cons_self x xs),
      ih (fun y hy => h y (List.mem_cons_of_mem x hy))]
    rfl

theorem lookup_cons_ne {k a : Str} (b : Str) (es : List (Str × Str)) (h : k ≠ a) :
    List.lookup k ((a, b) :: es) = List.lookup k es := by
  rw [List.lookup_cons]
  have : (k == a) = false := by
    rw [beq_eq_false_iff_ne]
    exact h
  rw [this]

theorem lookup_cons_self (k b : Str) (es : List (Str × Str)) :
    List.lookup k ((k, b) :: es) = some b := by
  rw [List.lookup_cons]
  simp

theorem lookup_pages (name : Nat → Str) (body : Nat → Str)
    (inj : ∀ a b, name a = name b → a = b) (tail : List (Str × Str)) :
    ∀ (l : List Nat) (i : Nat), i ∈ l →
      List.lookup (name i) ((l.map (fun j => (name j, body j))) ++ tail) = some (body i) := by
  intro l
  induction l with
  | nil => intro i h; exact absurd h (List.not_mem_nil i)
  | cons a as ih =>
    intro i h
    by_cases hia : i = a
    · subst hia
      rw [List.map_cons, List.cons_append, lookup_cons_self]
    · have hi : i ∈ as := by
        rcases List.mem_cons.mp h with h1 | h1
        · exact absurd h1 hia
        · exact h1
      rw [List.map_cons, List.cons_append,
        lookup_cons_ne _ _ (fun he => hia (inj i a he))]
      exact ih i hi

theorem lookup_bare (name : Nat → Str) (body : Nat → Str) (bareK bareV : Str)
    (hne : ∀ j, bareK ≠ name j) :
    ∀ l : List Nat,
      List.lookup bareK ((l.map (fun j => (name j, body j))) ++ [(bareK, bareV)])
        = some bareV := by
  intro l
  induction l with
  | nil =>
    rw [List.map_nil, List.nil_append, lookup_cons_self]
  | cons a as ih =>
    rw [List.map_cons, List.cons_append, lookup_cons_ne _ _ (hne a)]
    exact ih

/-- C6: running the merge/paginate pipeline a second time over the pages the
first run wrote, with no new items, recovers exactly the first run's fragment
lists, so the second save writes byte-identical files.  The hypotheses state
what the first run's page bytes must satisfy — the fragment lists are free of
duplicate texts and the rendered pages extract back to the slices they were
rendered from (the extraction-fidelity of the templates, discharged
concretely in the witness) — and that the base file name is dot-free, as
every name `configure_mode` produces is. -/
theorem c6_idempotent (tmpl style js base : Str) (P C : List Str) (k : Nat)
    (hk : 0 < k)
    (hbase : ∀ c ∈ base, c ≠ '.')
    (hP : P.Nodup) (hC : C.Nodup)
    (hfid_page : ∀ i < pageCount P C k,
      extractFrags POST_OPEN POST_CLOSE
          (save_html_render tmpl style js (sliceK k i P) (sliceK k i C) (some i)
            (decide (i < pageCount P C k - 1))) = sliceK k i P
      ∧ extractFrags COMMENT_OPEN COMMENT_CLOSE
          (save_html_render tmpl style js (sliceK k i P) (sliceK k i C) (some i)
            (decide (i < pageCount P C k - 1))) = sliceK k i C)
    (hfid_bare :
      extractFrags POST_OPEN POST_CLOSE (save_html_render tmpl style js P C none false) = P
      ∧ extractFrags COMMENT_OPEN COMMENT_CLOSE
          (save_html_render tmpl style js P C none false) = C) :
    (∃ ids, get_previous (runSave tmpl style js (base ++ (".html".toList)) P C k)
        (base ++ (".html".toList)) = some ⟨ids, P, C⟩)
    ∧ (∀ corpus, get_previous (runSave tmpl style js (base ++ (".html".toList)) P C k)
          (base ++ (".html".toList)) = some corpus →
        runSave tmpl style js (base ++ (".html".toList)) corpus.posts corpus.comments k
          = runSave tmpl style js (base ++ (".html".toList)) P C k) := by
  set htmlFile := base ++ (".html".toList) with hhf
  set pc := pageCount P C k with hpc
  set nameF : Nat → Str := fun i => base ++ ('.' :: (natStr i ++ (".html".toList))) with hnameF
  set bodyF : Nat → Str := fun i =>
    save_html_render tmpl style js (sliceK k i P) (sliceK k i C) (some i)
      (decide (i < pc - 1)) with hbodyF
  set bb := save_html_render tmpl style js P C none false with hbb
  set fs := runSave tmpl style js htmlFile P C k with hfsdef
  have hkne : ¬ k = 0 := Nat.pos_iff_ne_zero.mp hk
  have hargs : save_paginated_args P C k
      = (List.range pc).map
          (fun i => (⟨sliceK k i P, sliceK k i C, i, decide (i < pc - 1)⟩ : PageArgs)) := by
    rw [save_paginated_args, if_neg hkne]
  have hfs : fs = (List.range pc).map (fun i => (nameF i, bodyF i)) ++ [(htmlFile, bb)] := by
    rw [hfsdef]
    unfold runSave
    rw [hargs, List.map_map]
    congr 1
    refine List.map_congr_left ?_
    intro i _
    show (pageFileName htmlFile i,
      save_html_render tmpl style js (sliceK k i P) (sliceK k i C) (some i)
        (decide (i < pc - 1))) = (nameF i, bodyF i)
    rw [hhf, pageFileName_eq base hbase i]
  have hnames : htmlFilesOf fs = (List.range pc).map nameF ++ [htmlFile] := by
    unfold htmlFilesOf
    rw [hfs, List.map_append, List.map_map]
    have h1 : (List.range pc).map (Prod.fst ∘ fun i => (nameF i, bodyF i))
        = (List.range pc).map nameF := List.map_congr_left (fun i _ => rfl)
    rw [h1]
    refine List.filter_eq_self.mpr ?_
    intro a ha
    rcases List.mem_append.mp ha with h | h
    · obtain ⟨i, -, hi⟩ := List.mem_map.mp h
      rw [← hi, hnameF]
      show endsWithC (base ++ ('.' :: (natStr i ++ (".html".toList)))) (".html".toList) = true
      rw [pageName_assoc]
      exact endsWithC_append _ _
    · have ha2 : a = htmlFile := by simpa using h
      rw [ha2, hhf]
      exact endsWithC_append _ _
  have hbase_take : htmlFile.take (htmlFile.length - 5) = base := by
    have h1 : htmlFile.length - 5 = base.length := by
      rw [hhf]
      simp
    rw [h1, hhf, List.take_left]
  have hmatches_raw : (htmlFilesOf fs).filterMap (patMatch base)
      = (List.range pc).map nameF := by
    rw [hnames, List.filterMap_append, List.filterMap_map]
    have h1 : (List.range pc).filterMap (patMatch base ∘ nameF)
        = (List.range pc).filterMap (fun i => some (nameF i)) := by
      refine List.filterMap_congr ?_
      intro i _
      show patMatch base (nameF i) = some (nameF i)
      rw [hnameF]
      exact patMatch_page base i
    have h2 : (List.range pc).filterMap (fun i => some (nameF i))
        = (List.range pc).map nameF := by
      rw [show (fun i => some (nameF i)) = some ∘ nameF from rfl, List.filterMap_eq_map]
    have h3 : [htmlFile].filterMap (patMatch base) = [] := by
      rw [hhf]
      rw [List.filterMap_cons, patMatch_bare base]
      rfl
    rw [h1, h2, h3, List.append_nil]
  have hsorted : List.Sorted keyLe ((List.range pc).map nameF) := by
    refine List.Pairwise.map nameF ?_ (List.pairwise_lt_range pc)
    intro a b hab
    show keyLe (nameF a) (nameF b)
    unfold keyLe
    rw [hnameF]
    show keyNumD (base ++ ('.' :: (natStr a ++ (".html".toList))))
      ≤ keyNumD (base ++ ('.' :: (natStr b ++ (".html".toList))))
    rw [keyNumD_page base hbase a, keyNumD_page base hbase b]
    exact Nat.le_of_lt hab
  have hms : matchedSorted fs htmlFile = (List.range pc).map nameF := by
    unfold matchedSorted
    rw [hbase_take, hmatches_raw]
    exact hsorted.insertionSort_eq
  have hkeys : (matchedSorted fs htmlFile).mapM keyOf
      = some (((List.range pc).map nameF).map keyNumD) := by
    rw [hms]
    refine mapM_option_some _ keyOf keyNumD ?_
    intro m hm
    obtain ⟨i, -, hi⟩ := List.mem_map.mp hm
    rw [← hi, hnameF]
    show keyOf (base ++ ('.' :: (natStr i ++ (".html".toList))))
      = some (keyNumD (base ++ ('.' :: (natStr i ++ (".html".toList)))))
    rw [keyOf_page base hbase i, keyNumD_page base hbase i]
  have hro : readOrder fs htmlFile = (List.range pc).map nameF ++ [htmlFile] := by
    unfold readOrder
    rw [hms, if_pos ?_]
    show (htmlFilesOf fs).contains htmlFile = true
    have hmem : htmlFile ∈ htmlFilesOf fs := by
      rw [hnames]
      exact List.mem_append_right _ (List.mem_singleton_self htmlFile)
    exact List.elem_iff.mpr hmem
  have hinj : ∀ a b, nameF a = nameF b → a = b := by
    intro a b h
    rw [hnameF] at h
    exact pageName_inj base h
  have hlook_page : ∀ i ∈ List.range pc, List.lookup (nameF i) fs = some (bodyF i) := by
    intro i hi
    rw [hfs]
    exact lookup_pages nameF bodyF hinj [(htmlFile, bb)] (List.range pc) i hi
  have hlook_bare : List.lookup htmlFile fs = some bb := by
    rw [hfs]
    refine lookup_bare nameF bodyF htmlFile bb ?_ (List.range pc)
    intro j
    rw [hhf, hnameF]
    exact bare_ne_pageName base j
  have hcontents : (readOrder fs htmlFile).mapM (fun n => List.lookup n fs)
      = some ((readOrder fs htmlFile).map (fun n => (List.lookup n fs).getD [])) := by
    refine mapM_option_some _ _ _ ?_
    intro n hn
    rw [hro] at hn
    rcases List.mem_append.mp hn with h | h
    · obtain ⟨i, hi, hni⟩ := List.mem_map.mp h
      rw [← hni, hlook_page i hi]
      rfl
    · have hn2 : n = htmlFile := by simpa using h
      rw [hn2, hlook_bare]
      rfl
  have hcont_eq : (readOrder fs htmlFile).map (fun n => (List.lookup n fs).getD [])
      = (List.range pc).map bodyF ++ [bb] := by
    rw [hro, List.map_append, List.map_map]
    congr 1
    · refine List.map_congr_left ?_
      intro i hi
      show (List.lookup (nameF i) fs).getD [] = bodyF i
      rw [hlook_page i hi]
      rfl
    · show [(List.lookup htmlFile fs).getD []] = [bb]
      rw [hlook_bare]
      rfl
  have hchunkP : ((List.range pc).map (fun i => sliceK k i P)).flatten = P := by
    have h1 : (List.range pc).map (fun i => sliceK k i P)
        = (List.range pc).map (fun i => (P.drop (i * k)).take k) :=
      List.map_congr_left (fun i _ => rfl)
    rw [h1]
    refine join_chunks k pc P ?_
    exact le_trans (Nat.le_max_left _ _)
      (le_ceilDiv_mul (max P.length C.length) k hk)
  have hchunkC : ((List.range pc).map (fun i => sliceK k i C)).flatten = C := by
    have h1 : (List.range pc).map (fun i => sliceK k i C)
        = (List.range pc).map (fun i => (C.drop (i * k)).take k) :=
      List.map_congr_left (fun i _ => rfl)
    rw [h1]
    refine join_chunks k pc C ?_
    exact le_trans (Nat.le_max_right _ _)
      (le_ceilDiv_mul (max P.length C.length) k hk)
  have hddP : (P ++ P).foldl addUnique [] = P := by
    rw [List.foldl_append,
      foldl_addUnique_of_disjoint P [] hP (fun x _ hx => List.not_mem_nil x hx),
      List.nil_append]
    exact foldl_addUnique_of_all_mem P P (fun x hx => hx)
  have hddC : (C ++ C).foldl addUnique [] = C := by
    rw [List.foldl_append,
      foldl_addUnique_of_disjoint C [] hC (fun x _ hx => List.not_mem_nil x hx),
      List.nil_append]
    exact foldl_addUnique_of_all_mem C C (fun x hx => hx)
  have hextP : ((List.range pc).map bodyF ++ [bb]).map (extractFrags POST_OPEN POST_CLOSE)
      = (List.range pc).map (fun i => sliceK k i P) ++ [P] := by
    rw [List.map_append, List.map_map]
    congr 1
    · refine List.map_congr_left ?_
      intro i hi
      exact (hfid_page i (List.mem_range.mp hi)).1
    · show [extractFrags POST_OPEN POST_CLOSE bb] = [P]
      rw [hbb, hfid_bare.1]
  have hextC : ((List.range pc).map bodyF ++ [bb]).map
        (extractFrags COMMENT_OPEN COMMENT_CLOSE)
      = (List.range pc).map (fun i => sliceK k i C) ++ [C] := by
    rw [List.map_append, List.map_map]
    congr 1
    · refine List.map_congr_left ?_
      intro i hi
      exact (hfid_page i (List.mem_range.mp hi)).2
    · show [extractFrags COMMENT_OPEN COMMENT_CLOSE bb] = [C]
      rw [hbb, hfid_bare.2]
  have hfold := foldl_scanFile_decomp ((List.range pc).map bodyF ++ [bb]) ⟨[], [], []⟩
  have hposts : (((List.range pc).map bodyF ++ [bb]).foldl scanFile ⟨[], [], []⟩).posts
      = P := by
    rw [hfold]
    show (((List.range pc).map bodyF ++ [bb]).map
        (extractFrags POST_OPEN POST_CLOSE)).flatten.foldl addUnique [] = P
    rw [hextP, List.flatten_append, hchunkP]
    have : ([P] : List (List Str)).flatten = P := by simp
    rw [this]
    exact hddP
  have hcomments : (((List.range pc).map bodyF ++ [bb]).foldl scanFile ⟨[], [], []⟩).comments
      = C := by
    rw [hfold]
    show (((List.range pc).map bodyF ++ [bb]).map
        (extractFrags COMMENT_OPEN COMMENT_CLOSE)).flatten.foldl addUnique [] = C
    rw [hextC, List.flatten_append, hchunkC]
    have : ([C] : List (List Str)).flatten = C := by simp
    rw [this]
    exact hddC
  have hgp : get_previous fs htmlFile
      = some (((List.range pc).map bodyF ++ [bb]).foldl scanFile ⟨[], [], []⟩) := by
    unfold get_previous
    rw [hkeys]
    show (match (readOrder fs htmlFile).mapM (fun n => List.lookup n fs) with
      | none => none
      | some contents => some (contents.foldl scanFile ⟨[], [], []⟩))
      = some (((List.range pc).map bodyF ++ [bb]).foldl scanFile ⟨[], [], []⟩)
    rw [hcontents]
    show some (((readOrder fs htmlFile).map (fun n => (List.lookup n fs).getD [])).foldl
        scanFile ⟨[], [], []⟩) = _
    rw [hcont_eq]
  have hgp2 : get_previous fs htmlFile
      = some ⟨(((List.range pc).map bodyF ++ [bb]).foldl scanFile ⟨[], [], []⟩).ids, P, C⟩ := by
    rw [hgp]
    refine congrArg some ?_
    rw [← hposts, ← hcomments]
  refine ⟨⟨_, hgp2⟩, ?_⟩
  intro corpus hcorpus
  rw [hgp2] at hcorpus
  have hc2 := Option.some.inj hcorpus
  rw [← hc2]

/-- C6 witness: a one-post corpus rendered through a minimal template with
page size 1; the extraction-fidelity hypotheses are evaluated concretely and
the second run recovers the corpus exactly. -/
theorem c6_witness :
    ∃ ids, get_previous
        (runSave ("<!--posts-->B<!--comments-->".toList) ("s".toList) ("j".toList)
          (("a".toList) ++ (".html".toList))
          [("<div class=\"post\" id=\"x\">y<!--postend--></div>".toList)] [] 1)
        (("a".toList) ++ (".html".toList))
      = some ⟨ids, [("<div class=\"post\" id=\"x\">y<!--postend--></div>".toList)], []⟩ :=
  (c6_idempotent ("<!--posts-->B<!--comments-->".toList) ("s".toList) ("j".toList)
    ("a".toList) [("<div class=\"post\" id=\"x\">y<!--postend--></div>".toList)] [] 1
    (by decide) (by decide) (by decide) (by decide) (by decide) (by decide)).1

end RedditSave

